import Mathlib

/-!
Verification of the silk vote tower and page-table engine.

Shallow embedding of `programs/vote/src/vote_state.rs` (the Vote Tower) and
`src/page_table.rs` (the Parallel Transaction Page Engine), with theorems
settling the specification's claims about them.

Conventions of the embedding:
* `u64`/`u32` quantities (slots, epochs, balances, counters) are `Nat`.
  Rust `-=` on `u64` is modelled by truncated subtraction; on every path the
  code actually reaches, the surrounding guards make the subtraction exact,
  which the lemmas below establish where it matters.
* Opaque byte-array identifiers (`Pubkey`, `Hash`, `[u64; 4]` keys) are only
  ever compared for equality, so they are modelled as `Nat` with the
  all-zero value modelled as `0`.
* A `VecDeque` is a `List` whose head is the deque's front (oldest element)
  and whose last element is the deque's back (newest element).
* Rust methods that mutate `&mut self` become functions `State → ... → State`;
  methods returning `Result` become functions into `Except`.
-/

/-! ## Vote tower: data model (`vote_state.rs`) -/

/-- `Slot` (`solana_sdk::clock::Slot`, a `u64`). -/
abbrev Slot := Nat

/-- `Epoch` (`solana_sdk::clock::Epoch`, a `u64`). -/
abbrev Epoch := Nat

/-- `Hash` (opaque 32-byte value, equality-compared only). -/
abbrev SdkHash := Nat

/-- `Pubkey` (opaque 32-byte value, equality-compared only).
`Pubkey::default()` is modelled as `0`. -/
abbrev Pubkey := Nat

/-- `SlotHash = (Slot, Hash)`. -/
abbrev SlotHash := Slot × SdkHash

/-- `MAX_LOCKOUT_HISTORY` from vote_state.rs. -/
def MAX_LOCKOUT_HISTORY : Nat := 31

/-- `INITIAL_LOCKOUT` from vote_state.rs. -/
def INITIAL_LOCKOUT : Nat := 2

/-- `MAX_EPOCH_CREDITS_HISTORY` from vote_state.rs. -/
def MAX_EPOCH_CREDITS_HISTORY : Nat := 64

/-- `MAX_ITEMS` (capacity of the `prior_voters` ring buffer). -/
def MAX_ITEMS : Nat := 32

/-- `struct Vote { slots, hash, timestamp }`. -/
structure Vote where
  slots : List Slot
  hash : SdkHash
  timestamp : Option Int
deriving Repr, DecidableEq

/-- `struct Lockout { slot, confirmation_count }`. -/
structure Lockout where
  slot : Slot
  confirmation_count : Nat
deriving Repr, DecidableEq

instance : Inhabited Lockout := ⟨⟨0, 0⟩⟩

/-- `Lockout::new(slot)`: confirmation count starts at 1. -/
def Lockout.new (slot : Slot) : Lockout := ⟨slot, 1⟩

/-- `Lockout::lockout()` = `INITIAL_LOCKOUT ^ confirmation_count`. -/
def Lockout.lockout (l : Lockout) : Nat := INITIAL_LOCKOUT ^ l.confirmation_count

/-- `Lockout::expiration_slot()` = `slot + lockout()`. -/
def Lockout.expiration_slot (l : Lockout) : Slot := l.slot + l.lockout

/-- `Lockout::is_expired(slot)` = `expiration_slot() < slot`. -/
def Lockout.is_expired (l : Lockout) (slot : Slot) : Bool :=
  decide (l.expiration_slot < slot)

/-- `struct BlockTimestamp { slot, timestamp }`. -/
structure BlockTimestamp where
  slot : Slot
  timestamp : Int
deriving Repr, DecidableEq

/-- `CircBuf<(Pubkey, Epoch, Epoch, Slot)>`: fixed array of `MAX_ITEMS`
entries plus the next-write cursor. The array is a list of length
`MAX_ITEMS` (the length plays no role in the claims below). -/
structure CircBuf where
  buf : List (Pubkey × Epoch × Epoch × Slot)
  idx : Nat
deriving Repr, DecidableEq

/-- `CircBuf::default()`: all-default entries, `idx = MAX_ITEMS - 1`. -/
def CircBuf.default : CircBuf :=
  ⟨List.replicate MAX_ITEMS (0, 0, 0, 0), MAX_ITEMS - 1⟩

/-- `enum VoteError` (vote_instruction.rs variants used by vote_state.rs). -/
inductive VoteError where
  | VoteTooOld
  | SlotsMismatch
  | SlotHashMismatch
  | EmptySlots
  | TimestampTooOld
  | TooSoonToReauthorize
  | InvalidSlashTransaction
deriving Repr, DecidableEq

/-- `struct VoteState`. `epoch_credits` entries are
`(epoch, credits, prev_credits)`. -/
structure VoteState where
  node_pubkey : Pubkey
  authorized_voter : Pubkey
  authorized_voter_epoch : Epoch
  prior_voters : CircBuf
  authorized_withdrawer : Pubkey
  commission : Nat
  votes : List Lockout
  root_slot : Option Slot
  epoch_credits : List (Epoch × Nat × Nat)
  last_timestamp : BlockTimestamp
  has_been_slashed : Bool
deriving Repr, DecidableEq

/-- `VoteState::default()`. -/
def VoteState.default : VoteState where
  node_pubkey := 0
  authorized_voter := 0
  authorized_voter_epoch := 0
  prior_voters := CircBuf.default
  authorized_withdrawer := 0
  commission := 0
  votes := []
  root_slot := none
  epoch_credits := []
  last_timestamp := ⟨0, 0⟩
  has_been_slashed := false

/-! ## Vote tower: operations -/

/-- `VoteState::pop_expired_votes(slot)`: pop from the back of the deque
while the back entry is expired. Popping from the back of a list-with-back-
at-the-end is dropping from the end, i.e. `dropWhile` on the reverse. -/
def popExpiredVotes (slot : Slot) (votes : List Lockout) : List Lockout :=
  ((votes.reverse.dropWhile (fun v => v.is_expired slot)).reverse)

/-- The loop body of `VoteState::double_lockouts`: `i` is the 0-based index
from the front of the deque, `stackDepth` is `self.votes.len()`; an entry is
bumped when `stack_depth > i + confirmation_count`. -/
def doubleLockoutsAux (stackDepth : Nat) : Nat → List Lockout → List Lockout
  | _, [] => []
  | i, v :: rest =>
    (if stackDepth > i + v.confirmation_count then
        { v with confirmation_count := v.confirmation_count + 1 }
      else v) :: doubleLockoutsAux stackDepth (i + 1) rest

/-- `VoteState::double_lockouts()`. -/
def VoteState.double_lockouts (s : VoteState) : VoteState :=
  { s with votes := doubleLockoutsAux s.votes.length 0 s.votes }

/-- `VoteState::increment_credits(epoch)`. -/
def VoteState.increment_credits (s : VoteState) (epoch : Epoch) : VoteState :=
  let ec := s.epoch_credits
  let ec1 :=
    if ec.isEmpty then [(epoch, 0, 0)]
    else
      match ec.getLast? with
      | some (e, credits, prev_credits) =>
        if e ≠ epoch then
          let ec' :=
            if credits ≠ prev_credits then ec ++ [(epoch, credits, credits)]
            else ec.dropLast ++ [(epoch, credits, prev_credits)]
          if ec'.length > MAX_EPOCH_CREDITS_HISTORY then ec'.drop 1 else ec'
        else ec
      | none => ec
  let ec2 :=
    match ec1.getLast? with
    | some (e, c, p) => ec1.dropLast ++ [(e, c + 1, p)]
    | none => ec1
  { s with epoch_credits := ec2 }

/-- `VoteState::credits()`: the newest tuple's `credits`, or 0 when empty. -/
def VoteState.credits (s : VoteState) : Nat :=
  match s.epoch_credits.getLast? with
  | some (_, c, _) => c
  | none => 0

/-- `VoteState::current_epoch()`: the newest tuple's epoch, or 0. -/
def VoteState.current_epoch (s : VoteState) : Epoch :=
  match s.epoch_credits.getLast? with
  | some (e, _, _) => e
  | none => 0

/-- The guard at the top of `VoteState::process_slot`:
`self.votes.back().map_or(false, |old_vote| old_vote.slot >= slot)`. -/
def backSlotGe (votes : List Lockout) (slot : Slot) : Bool :=
  match votes.getLast? with
  | some old_vote => decide (slot ≤ old_vote.slot)
  | none => false

/-- `VoteState::process_slot(slot, epoch)`. -/
def VoteState.process_slot (s : VoteState) (slot : Slot) (epoch : Epoch) :
    VoteState :=
  if backSlotGe s.votes slot then s
  else
    let votes1 := popExpiredVotes slot s.votes
    let s2 :=
      if votes1.length = MAX_LOCKOUT_HISTORY then
        match votes1 with
        | popped :: rest =>
          VoteState.increment_credits
            { s with votes := rest, root_slot := some popped.slot } epoch
        | [] => { s with votes := votes1 }
      else { s with votes := votes1 }
    VoteState.double_lockouts { s2 with votes := s2.votes ++ [Lockout.new slot] }

/-- The `while i < vote.slots.len() && j > 0` loop of
`VoteState::check_slots_are_valid`, returning the final `(i, j)`.
`back?` is the (fixed) `self.votes.back()` slot. -/
def checkSlotsLoop (back? : Option Slot) (slots : List Slot)
    (slot_hashes : List SlotHash) (i j : Nat) : Nat × Nat :=
  if i < slots.length ∧ 0 < j then
    if (match back? with
        | some b => decide (slots.getD i 0 ≤ b)
        | none => false) then
      checkSlotsLoop back? slots slot_hashes (i + 1) j
    else if slots.getD i 0 ≠ (slot_hashes.getD (j - 1) (0, 0)).1 then
      checkSlotsLoop back? slots slot_hashes i (j - 1)
    else
      checkSlotsLoop back? slots slot_hashes (i + 1) (j - 1)
  else (i, j)
termination_by (slots.length - i) + j
decreasing_by
  · omega
  · omega
  · omega

/-- `VoteState::check_slots_are_valid(vote, slot_hashes)`. -/
def VoteState.check_slots_are_valid (s : VoteState) (vote : Vote)
    (slot_hashes : List SlotHash) : Except VoteError Unit :=
  let ij := checkSlotsLoop ((s.votes.getLast?).map Lockout.slot) vote.slots
    slot_hashes 0 slot_hashes.length
  if ij.2 = slot_hashes.length then .error .VoteTooOld
  else if ij.1 ≠ vote.slots.length then .error .SlotsMismatch
  else if (slot_hashes.getD ij.2 (0, 0)).2 ≠ vote.hash then
    .error .SlotHashMismatch
  else .ok ()

/-- `VoteState::process_vote(vote, slot_hashes, epoch)`: `Ok` carries the
updated state (the Rust method mutates `self` in place only after all
checks pass). -/
def VoteState.process_vote (s : VoteState) (vote : Vote)
    (slot_hashes : List SlotHash) (epoch : Epoch) : Except VoteError VoteState :=
  if vote.slots.isEmpty then .error .EmptySlots
  else
    match s.check_slots_are_valid vote slot_hashes with
    | .error e => .error e
    | .ok () =>
      .ok (vote.slots.foldl (fun st sl => st.process_slot sl epoch) s)

/-- `VoteState::process_vote_unchecked(vote)`: builds the witness from the
vote itself and ignores the result (so the state is unchanged on error). -/
def VoteState.process_vote_unchecked (s : VoteState) (vote : Vote) : VoteState :=
  let slot_hashes := vote.slots.reverse.map (fun x => (x, vote.hash))
  match s.process_vote vote slot_hashes s.current_epoch with
  | .ok s' => s'
  | .error _ => s

/-- `VoteState::process_slot_vote_unchecked(slot)`. -/
def VoteState.process_slot_vote_unchecked (s : VoteState) (slot : Slot) :
    VoteState :=
  s.process_vote_unchecked ⟨[slot], 0, none⟩

/-- `VoteState::slots()`: `root_slot` (if any) followed by the vote slots. -/
def VoteState.slots (s : VoteState) : List Slot :=
  s.root_slot.toList ++ s.votes.map Lockout.slot

/-- `VoteState::equal(other)`: zip `other` against `root_slot ∪ votes[].slot`
(the zip stops at the shorter sequence — the one-sided prefix check). -/
def VoteState.equal (s : VoteState) (other : List Slot) : Bool :=
  (other.zip (s.root_slot.toList ++ s.votes.map Lockout.slot)).all
    (fun p => p.1 == p.2)

/-- `VoteState::same_or_older(other)`: newest own vote slot (falling back to
`root_slot` then 0) ≤ last candidate slot (falling back to 0). -/
def VoteState.same_or_older (s : VoteState) (other : List Slot) : Bool :=
  decide ((match s.votes.getLast? with
           | some l => l.slot
           | none => s.root_slot.getD 0)
    ≤ (other.getLast?).getD 0)

/-- `Vec::dedup`: remove consecutive repeated elements. -/
def dedupConsecutive : List Slot → List Slot
  | [] => []
  | [x] => [x]
  | x :: y :: rest =>
    if x = y then dedupConsecutive (y :: rest)
    else x :: dedupConsecutive (y :: rest)

/-- The `test` state of `VoteState::slashable_slots`: union this state's
vote slots with the candidate slots, `Vec::sort` (ascending), `Vec::dedup`,
and replay the result into a fresh `VoteState`. -/
def replayedTower (s : VoteState) (votes : List Slot) : VoteState :=
  let slashable_votes := (s.votes.map Lockout.slot) ++ votes
  let sorted := slashable_votes.mergeSort (fun a b => decide (a ≤ b))
  let deduped := dedupConsecutive sorted
  deduped.foldl (fun st sl => st.process_slot_vote_unchecked sl)
    VoteState.default

/-- `VoteState::slashable_slots(votes)`. The two `HashSet` differences are
modelled as filters over the replayed tower's slot list (`HashSet`
iteration order is unspecified in Rust; only membership/emptiness of the
result is claimed anywhere). -/
def VoteState.slashable_slots (s : VoteState) (votes : List Slot) : List Slot :=
  let test := replayedTower s votes
  let retval1 :=
    if ¬ (test.equal votes = true) ∧ ¬ (s.same_or_older votes = true) then
      (test.votes.map Lockout.slot).filter
        (fun x => decide (x ∉ s.votes.map Lockout.slot))
    else []
  let retval2 :=
    if ¬ (test.equal votes = true) ∧ ¬ (s.same_or_older votes = true) then
      (test.votes.map Lockout.slot).filter (fun x => decide (x ∉ votes))
    else []
  retval1 ++ retval2

/-- `VoteState::previous_signer(signers)`: the signer set contains the
current authorized voter, or some `prior_voters` entry whose recorded pubkey
IS the default pubkey has its (default) pubkey in the signer set. Signer
sets are modelled as lists with membership. -/
def VoteState.previous_signer (s : VoteState) (signers : List Pubkey) : Bool :=
  signers.contains s.authorized_voter ||
    ((s.prior_voters.buf.filter (fun v => v.1 == 0)).any
      (fun v => signers.contains v.1))

/-! ## Page Engine: data model (`src/page_table.rs`)

The pipeline functions address batch elements as `tx.call.caller` /
`tx.destination` (the `Tx { call, destination }` shape the file's own tests
and benches construct), so the batch element here is `Tx` with a nested
`Call`. `PublicKey` (`[u64; 4]`, equality-compared only) is `Nat`;
`DEFAULT_CONTRACT` (`[0u64; 4]`) is `0`. -/

/-- `PublicKey = [u64; 4]`, equality-compared only. -/
abbrev PublicKey := Nat

/-- `DEFAULT_CONTRACT: [u64; 4] = [0; 4]`. -/
def DEFAULT_CONTRACT : PublicKey := 0

/-- The decoded forms `deserialize(user_data)` takes in the three built-in
methods: a `usize` for realloc, a key for assign, a `u64` for move_funds.
Malformed data makes the Rust `unwrap()` panic; decoding is modelled with a
default value, which the conservation check makes immaterial below. -/
inductive UserData where
  | uSize (n : Nat)
  | uKey (k : PublicKey)
  | uAmount (n : Nat)
  | uNone
deriving Repr, DecidableEq

/-- `deserialize::<usize>(user_data)` as used by `SYSTEM_0_realloc`. -/
def UserData.asSize : UserData → Nat
  | .uSize n => n
  | _ => 0

/-- `deserialize::<PublicKey>(user_data)` as used by `SYSTEM_1_assign`. -/
def UserData.asKey : UserData → PublicKey
  | .uKey k => k
  | _ => 0

/-- `deserialize::<u64>(user_data)` as used by
`DEFAULT_CONTRACT_128_move_funds`. -/
def UserData.asAmount : UserData → Nat
  | .uAmount n => n
  | _ => 0

/-- `struct Page { owner, contract, balance, version, memhash, memory }`. -/
structure Page where
  owner : PublicKey
  contract : PublicKey
  balance : Nat
  version : Nat
  memhash : Nat
  memory : List Nat
deriving Repr, DecidableEq

/-- `Page::default()`. -/
def Page.default : Page := ⟨0, 0, 0, 0, 0, []⟩

instance : Inhabited Page := ⟨Page.default⟩

/-- `struct Call` (the fields the pipeline reads; `proofs`, `last_id` and
`last_hash` are never inspected by it). -/
structure Call where
  caller : PublicKey
  contract : PublicKey
  amount : Nat
  fee : Nat
  version : Nat
  method : Nat
  user_data : UserData
deriving Repr, DecidableEq

/-- `Tx { call, destination }` — the batch element the pipeline walks. -/
structure Tx where
  call : Call
  destination : PublicKey
deriving Repr, DecidableEq

instance : Inhabited Tx := ⟨⟨⟨0, 0, 0, 0, 0, 0, .uNone⟩, 0⟩⟩

/-- `Vec::resize` on a byte vector. -/
def memResize (l : List Nat) (n : Nat) : List Nat :=
  l.take n ++ List.replicate (n - l.length) 0

/-- `SYSTEM_0_realloc`: resize `pages[0].memory` to the decoded size. -/
def SYSTEM_0_realloc (call : Call) (pages : List Page) : List Page :=
  let size := call.user_data.asSize
  match pages with
  | p0 :: rest => { p0 with memory := memResize p0.memory size } :: rest
  | [] => []

/-- `SYSTEM_1_assign`: assign `pages[0]` to the decoded contract when both
the call's contract and the page's contract are `DEFAULT_CONTRACT`. -/
def SYSTEM_1_assign (call : Call) (pages : List Page) : List Page :=
  let contract := call.user_data.asKey
  match pages with
  | p0 :: rest =>
    if call.contract = DEFAULT_CONTRACT ∧ p0.contract = DEFAULT_CONTRACT then
      { p0 with contract := contract } :: rest
    else p0 :: rest
  | [] => []

/-- `DEFAULT_CONTRACT_128_move_funds`: move the decoded amount from
`pages[0]` to `pages[1]` (`u64` subtraction modelled as truncated). -/
def DEFAULT_CONTRACT_128_move_funds (call : Call) (pages : List Page) :
    List Page :=
  let amount := call.user_data.asAmount
  match pages with
  | p0 :: p1 :: rest =>
    { p0 with balance := p0.balance - amount }
      :: { p1 with balance := p1.balance + amount } :: rest
  | l => l

/-- `struct AllocatedPages { max, allocated, free }`: the `BTreeMap` is an
association list with (by construction) unique keys. -/
structure AllocatedPages where
  max : Nat
  allocated : List (PublicKey × Nat)
  free : List Nat
deriving Repr, DecidableEq

/-- `AllocatedPages::new()`. -/
def AllocatedPages.new : AllocatedPages := ⟨0, [], []⟩

/-- `AllocatedPages::lookup(key)`. -/
def AllocatedPages.lookup (ap : AllocatedPages) (key : PublicKey) :
    Option Nat :=
  (ap.allocated.find? (fun p => p.1 == key)).map Prod.snd

/-- `AllocatedPages::allocate(key)`: pop a free index if any, else take and
bump `max`; insert the mapping (the Rust code asserts the key was absent).
Returns the index and the updated map. -/
def AllocatedPages.allocate (ap : AllocatedPages) (key : PublicKey) :
    Nat × AllocatedPages :=
  match ap.free with
  | p :: rest => (p, ⟨ap.max, ap.allocated ++ [(key, p)], rest⟩)
  | [] => (ap.max, ⟨ap.max + 1, ap.allocated ++ [(key, ap.max)], []⟩)

/-- The set of locked page keys (`HashSet<PublicKey, FastHasher>`; the
random-seed hasher only affects performance, membership is all that is
observable). -/
abbrev LockSet := List PublicKey

/-- `HashSet::insert`. -/
def LockSet.insertKey (s : LockSet) (k : PublicKey) : LockSet :=
  if s.contains k then s else k :: s

/-- `HashSet::remove`. -/
def LockSet.removeKey (s : LockSet) (k : PublicKey) : LockSet :=
  s.filter (fun x => x != k)

/-- `struct PageTable { page_table, allocated_pages, mem_locks }`. -/
structure PageTable where
  page_table : List Page
  allocated_pages : AllocatedPages
  mem_locks : LockSet
deriving Repr, DecidableEq

/-- `PageTable::new()`. -/
def PageTable.new : PageTable := ⟨[], AllocatedPages.new, []⟩

/-! ## Page Engine: the six pipeline stages -/

/-- `PageTable::acquire_memory_lock`: for each call in order, record whether
its caller or destination key collides with the lock set, and insert both
keys when it does not. Returns the `acquired_memory` vector and the final
lock set. -/
def acquireMemoryLock (locks : LockSet) : List Tx → List Bool × LockSet
  | [] => ([], locks)
  | p :: rest =>
    let collision := locks.contains p.call.caller || locks.contains p.destination
    let locks' :=
      if collision then locks
      else (locks.insertKey p.call.caller).insertKey p.destination
    let r := acquireMemoryLock locks' rest
    ((!collision) :: r.1, r.2)

/-- One entry of `PageTable::validate_debits`: the caller's page must exist,
(assert) be owned by the caller, have `version < call.version`, the call's
contract, and `balance ≥ fee + amount`. The `assert_eq!(page.owner,
tx.call.caller)` never fires for tables built by `allocate` (see
`WellFormed` below), so it is not a branch here. -/
def validateDebitEntry (pt : PageTable) (tx : Tx) (acquired : Bool) :
    Option Nat :=
  if !acquired then none
  else
    match pt.allocated_pages.lookup tx.call.caller with
    | none => none
    | some memix =>
      match pt.page_table.get? memix with
      | none => none
      | some page =>
        if page.version ≥ tx.call.version then none
        else if page.contract ≠ tx.call.contract then none
        else if page.balance ≥ tx.call.fee + tx.call.amount then some memix
        else none

/-- `PageTable::validate_debits` over the whole batch. -/
def validateDebits (pt : PageTable) (packet : List Tx)
    (acquired_memory : List Bool) : List (Option Nat) :=
  (packet.zip acquired_memory).map (fun p => validateDebitEntry pt p.1 p.2)

/-- `PageTable::find_new_keys`: for each call with a validated debit, look
up the destination key (still `none` when unallocated). -/
def findNewKeys (pt : PageTable) (packet : List Tx)
    (from_pages : List (Option Nat)) : List (Option Nat) :=
  (packet.zip from_pages).map (fun p =>
    match p.2 with
    | none => none
    | some _ => pt.allocated_pages.lookup p.1.destination)

/-- The body of one allocation of `PageTable::allocate_keys`: allocate an
index for the destination key, grow the page vector if the index is past
its end, and install the fresh zero-balance page owned by the destination
with the call's contract. -/
def allocOne (pt : PageTable) (tx : Tx) : PageTable :=
  let page : Page :=
    { owner := tx.destination, contract := tx.call.contract,
      balance := 0, version := 0, memhash := 0, memory := [] }
  let ia := pt.allocated_pages.allocate tx.destination
  let table' :=
    if pt.page_table.length ≤ ia.1 then
      pt.page_table ++
        List.replicate (ia.1 + 1 - pt.page_table.length) Page.default
    else pt.page_table
  { pt with page_table := table'.set ia.1 page, allocated_pages := ia.2 }

/-- `PageTable::allocate_keys`: for each call whose debit validated but
whose destination is unallocated, run `allocOne` and record the allocated
index. Returns the updated table and the completed `to_pages`. -/
def allocateKeysGo (pt : PageTable) :
    List (Tx × Option Nat × Option Nat) → PageTable × List (Option Nat)
  | [] => (pt, [])
  | (tx, fp, tp) :: rest =>
    if fp.isNone || tp.isSome then
      ((allocateKeysGo pt rest).1, tp :: (allocateKeysGo pt rest).2)
    else
      ((allocateKeysGo (allocOne pt tx) rest).1,
        some (pt.allocated_pages.allocate tx.destination).1 ::
          (allocateKeysGo (allocOne pt tx) rest).2)

/-- `PageTable::allocate_keys` over the zipped batch. -/
def allocateKeys (pt : PageTable) (packet : List Tx)
    (from_pages to_pages : List (Option Nat)) : PageTable × List (Option Nat) :=
  allocateKeysGo pt (packet.zip (from_pages.zip to_pages))

/-- `PageTable::load_pages`: a call's pages load when both its caller page
and its destination page are resolved; the `&mut Page` references are
embedded as the pair of page-table indices. -/
def loadPages (packet : List Tx) (from_pages to_pages : List (Option Nat)) :
    List (Option (Nat × Nat)) :=
  (packet.zip (from_pages.zip to_pages)).map (fun p =>
    match p.2.1, p.2.2 with
    | some f, some t => some (f, t)
    | _, _ => none)

/-- `Σ balance` over the pages a call loaded whose contract IS the call's
contract (`pre/after_call_total_spendable`). -/
def spendableTotal (tx : Tx) (pages : List Page) : Nat :=
  (pages.map (fun p => if p.contract = tx.call.contract then p.balance else 0)).sum

/-- `Σ balance` over the loaded pages whose contract is NOT the call's
contract (`pre/after_call_total_unspendable`). -/
def unspendableTotal (tx : Tx) (pages : List Page) : Nat :=
  (pages.map (fun p => if p.contract ≠ tx.call.contract then p.balance else 0)).sum

/-- Method dispatch of `par_execute` on the cloned `call_pages`:
`(_, 0)` realloc, `(_, 1)` assign, `(DEFAULT_CONTRACT, 128)` move_funds,
anything else a warning no-op. -/
def dispatchCall (tx : Tx) (call_pages : List Page) : List Page :=
  if tx.call.method = 0 then SYSTEM_0_realloc tx.call call_pages
  else if tx.call.method = 1 then SYSTEM_1_assign tx.call call_pages
  else if tx.call.contract = DEFAULT_CONTRACT ∧ tx.call.method = 128 then
    DEFAULT_CONTRACT_128_move_funds tx.call call_pages
  else call_pages

/-- `loaded_pages[0].balance -= tx.fee`: the fee is spent from the caller's
page first, directly on the table. -/
def feeCharged (table : List Page) (tx : Tx) (fix : Nat) : List Page :=
  table.set fix { table.getD fix Page.default with
    balance := (table.getD fix Page.default).balance - tx.call.fee }

/-- The two pages a call loads (caller's page, destination page), read after
the fee debit. -/
def loadedPages (table1 : List Page) (fix tix : Nat) : List Page :=
  [table1.getD fix Page.default, table1.getD tix Page.default]

/-- One call of `PageTable::par_execute`: spend the fee from the caller's
page first, clone the loaded pages (`call_pages`), dispatch, and commit the
clones back only when `after_call_total == pre_call_total` (first conjunct,
with each total being spendable + unspendable) and
`after_call_total_spendable == pre_call_total_spendable` (second
conjunct). -/
def execCall (table : List Page) (tx : Tx) (fix tix : Nat) : List Page :=
  let table1 := feeCharged table tx fix
  let loaded := loadedPages table1 fix tix
  let call_pages := dispatchCall tx loaded
  if spendableTotal tx call_pages + unspendableTotal tx call_pages =
      spendableTotal tx loaded + unspendableTotal tx loaded ∧
     spendableTotal tx call_pages = spendableTotal tx loaded then
    (table1.set fix (call_pages.getD 0 Page.default)).set tix
      (call_pages.getD 1 Page.default)
  else table1

/-- The iteration of `PageTable::par_execute` over
`packet.iter().zip(&loaded_page_table)`: calls whose pages did not load are
skipped. -/
def parExecuteGo (table : List Page) :
    List (Tx × Option (Nat × Nat)) → List Page
  | [] => table
  | (tx, some ft) :: rest => parExecuteGo (execCall table tx ft.1 ft.2) rest
  | (_, none) :: rest => parExecuteGo table rest

/-- `PageTable::par_execute` over the batch (the memory lock keeps the
calls' page sets disjoint, so the parallel iteration is equivalent to this
in-order walk). -/
def parExecute (table : List Page) (packet : List Tx)
    (loaded_page_table : List (Option (Nat × Nat))) : List Page :=
  parExecuteGo table (packet.zip loaded_page_table)

/-- `PageTable::load_and_execute`. -/
def loadAndExecute (pt : PageTable) (packet : List Tx)
    (from_pages to_pages : List (Option Nat)) : PageTable :=
  { pt with page_table :=
      parExecute pt.page_table packet (loadPages packet from_pages to_pages) }

/-- `PageTable::release_memory_lock`: remove each acquired call's caller and
destination keys. -/
def releaseMemoryLock (locks : LockSet) : List Tx → List Bool → LockSet
  | p :: rest, l :: ls =>
    if l then
      releaseMemoryLock ((locks.removeKey p.call.caller).removeKey p.destination)
        rest ls
    else releaseMemoryLock locks rest ls
  | _, _ => locks

/-- The full Page Engine pipeline on one batch:
`acquire_memory_lock; validate_debits; find_new_keys; allocate_keys;
load_and_execute; release_memory_lock`. -/
def runBatch (pt : PageTable) (packet : List Tx) : PageTable :=
  let ar := acquireMemoryLock pt.mem_locks packet
  let pt1 : PageTable := { pt with mem_locks := ar.2 }
  let from_pages := validateDebits pt1 packet ar.1
  let to_pages := findNewKeys pt1 packet from_pages
  let al := allocateKeys pt1 packet from_pages to_pages
  let pt3 := loadAndExecute al.1 packet from_pages al.2
  { pt3 with mem_locks := releaseMemoryLock pt3.mem_locks packet ar.1 }

/-- Σ balance over every page of the table. -/
def totalBalance (pt : PageTable) : Nat :=
  (pt.page_table.map Page.balance).sum

/-- The fees burnt by a batch: `par_execute` debits `tx.fee` from the caller
page of every call whose pages loaded, committed or not. -/
def executedFees (pt : PageTable) (packet : List Tx) : Nat :=
  let ar := acquireMemoryLock pt.mem_locks packet
  let pt1 : PageTable := { pt with mem_locks := ar.2 }
  let from_pages := validateDebits pt1 packet ar.1
  let to_pages := findNewKeys pt1 packet from_pages
  let al := allocateKeys pt1 packet from_pages to_pages
  ((packet.zip (loadPages packet from_pages al.2)).map
    (fun p => if p.2.isSome then p.1.call.fee else 0)).sum

/-! ## Derived notions used by the theorems -/

/-- A sequence of `process_slot` calls, each with its slot and epoch. -/
def runProcessSlots (s : VoteState) (l : List (Slot × Epoch)) : VoteState :=
  l.foldl (fun st p => st.process_slot p.1 p.2) s

/-- The keys `acquire_memory_lock`/`release_memory_lock` handle for one
call: its caller key and its destination key. -/
def txKeys (tx : Tx) : List PublicKey := [tx.call.caller, tx.destination]

/-- The collision test of `acquire_memory_lock` for one call. -/
def txCollides (locks : LockSet) (tx : Tx) : Bool :=
  locks.contains tx.call.caller || locks.contains tx.destination

/-- The invariant behind `validate_debits`' `assert_eq!(page.owner,
tx.call.caller)`: every allocated index points at a page owned by its key.
`allocate_keys` and `force_allocate` only ever create such mappings. -/
def OwnerWF (pt : PageTable) : Prop :=
  ∀ p ∈ pt.allocated_pages.allocated, ∀ page,
    pt.page_table.get? p.2 = some page → page.owner = p.1

/-- Well-formedness of `AllocatedPages` against the page vector, as
`PageTable::new` establishes and the pipeline maintains: every mapped index
is in bounds, keys and indices are duplicate-free, the free list is empty
(nothing in the pipeline calls `free`), and `max` is the page vector's
length. -/
def MapWF (pt : PageTable) : Prop :=
  (∀ p ∈ pt.allocated_pages.allocated, p.2 < pt.page_table.length) ∧
  pt.allocated_pages.allocated.Pairwise (fun a b => a.1 ≠ b.1 ∧ a.2 ≠ b.2) ∧
  pt.allocated_pages.free = [] ∧
  pt.allocated_pages.max = pt.page_table.length

/-! ## C4: the 32-slot end-to-end scenario -/

/-- The slots of the C4 scenario: 0, 2, 4, …, 60 (31 slots) then 62,
all in epoch 0. -/
def c4Slots : List (Slot × Epoch) :=
  ((List.range 31).map (fun i => (2 * i, 0))) ++ [(62, 0)]

set_option maxRecDepth 4000 in
/-- C4: from a fresh `VoteState`, processing slots 0, 2, …, 60 and then 62
leaves `root_slot = Some(0)`, 31 votes, and 1 credit. -/
theorem claim_C4_lockout_scenario :
    (runProcessSlots VoteState.default c4Slots).root_slot = some 0 ∧
    (runProcessSlots VoteState.default c4Slots).votes.length = 31 ∧
    (runProcessSlots VoteState.default c4Slots).credits = 1 := by
  refine ⟨?_, ?_, ?_⟩ <;> rfl

/-! ## C10: `previous_signer` -/

/-- C10: `previous_signer` is true exactly when the signer set contains the
current `authorized_voter`, or it contains the default pubkey while some
`prior_voters` entry records the default pubkey. In particular an entry
recording a real (non-default) prior voter never satisfies it: the filter
keeps only default-pubkey entries, so `slash_state`'s prior-voter exemption
never matches a genuine prior voter. -/
theorem claim_C10_previous_signer (s : VoteState) (signers : List Pubkey) :
    s.previous_signer signers = true ↔
      (s.authorized_voter ∈ signers ∨
        ((0 : Pubkey) ∈ signers ∧ ∃ v ∈ s.prior_voters.buf, v.1 = 0)) := by
  unfold VoteState.previous_signer
  simp only [Bool.or_eq_true, List.any_eq_true, List.mem_filter,
    List.elem_eq_mem, decide_eq_true_eq, beq_iff_eq]
  constructor
  · rintro (h | ⟨v, ⟨hv, hv0⟩, hmem⟩)
    · exact Or.inl h
    · exact Or.inr ⟨hv0 ▸ hmem, v, hv, hv0⟩
  · rintro (h | ⟨h0, v, hv, hv0⟩)
    · exact Or.inl h
    · exact Or.inr ⟨v, ⟨hv, hv0⟩, hv0 ▸ h0⟩

/-! ## C9: `slashable_slots` returns empty on consistent candidates -/

/-- `same_or_older` holds of a state's own `slots()` list. -/
theorem same_or_older_self (s : VoteState) : s.same_or_older s.slots = true := by
  unfold VoteState.same_or_older VoteState.slots
  rcases h : s.votes.getLast? with _ | l
  · have hv : s.votes = [] := List.getLast?_eq_none_iff.mp h
    rcases hr : s.root_slot with _ | r <;>
      simp [hv, hr, Option.toList]
  · have hmap : (s.votes.map Lockout.slot).getLast? = some l.slot := by
      rw [List.getLast?_map, h]
      rfl
    have hne : s.votes.map Lockout.slot ≠ [] := by
      intro hcon
      rw [hcon] at hmap
      exact (Option.noConfusion hmap)
    rw [List.getLast?_append_of_ne_nil _ hne, hmap]
    simp

/-- C9: `slashable_slots` is empty whenever the replayed union tower passes
the one-sided `equal` check against the candidate slots or the state's
newest vote is no newer than the last candidate slot; in particular
`slashable_slots(self.slots())` is always empty. -/
theorem claim_C9_slashable_slots_empty (s : VoteState) (candidate : List Slot) :
    (((replayedTower s candidate).equal candidate = true ∨
        s.same_or_older candidate = true) →
      s.slashable_slots candidate = []) ∧
    s.slashable_slots s.slots = [] := by
  have key : ∀ cand : List Slot,
      ((replayedTower s cand).equal cand = true ∨ s.same_or_older cand = true) →
      s.slashable_slots cand = [] := by
    intro cand h
    unfold VoteState.slashable_slots
    have hcond : ¬ (¬ ((replayedTower s cand).equal cand = true) ∧
        ¬ (s.same_or_older cand = true)) := by tauto
    simp only [if_neg hcond, List.append_nil]
  exact ⟨key candidate, key s.slots (Or.inr (same_or_older_self s))⟩

/-! ## C3: the error cascade of `process_vote` -/

/-- The error cascade claimed for `process_vote` (stated after the spec's
§4.4/§7 wording, for comparison with the code): `EmptySlots` iff the vote
has no slots; otherwise, with `(i, j)` the result of the single walk,
`VoteTooOld` iff `j` still equals `len(slot_hashes)`, else `SlotsMismatch`
iff not all vote slots were consumed, else `SlotHashMismatch` iff the hash
at the matched position differs, else success (`none`). -/
def processVoteErrorSpec (s : VoteState) (vote : Vote)
    (slot_hashes : List SlotHash) : Option VoteError :=
  if vote.slots = [] then some .EmptySlots
  else
    let ij := checkSlotsLoop ((s.votes.getLast?).map Lockout.slot) vote.slots
      slot_hashes 0 slot_hashes.length
    if ij.2 = slot_hashes.length then some .VoteTooOld
    else if ij.1 ≠ vote.slots.length then some .SlotsMismatch
    else if (slot_hashes.getD ij.2 (0, 0)).2 ≠ vote.hash then
      some .SlotHashMismatch
    else none

/-- C3: `process_vote` errors with exactly the cascade of
`processVoteErrorSpec` — `EmptySlots` iff `vote.slots` is empty, then
`VoteTooOld`/`SlotsMismatch`/`SlotHashMismatch` decided by the single walk's
final `(i, j)` — and returns `Ok` exactly when the cascade produces no
error. -/
theorem claim_C3_process_vote_error_cases (s : VoteState) (vote : Vote)
    (sh : List SlotHash) (epoch : Epoch) :
    (∀ e : VoteError, s.process_vote vote sh epoch = .error e ↔
        processVoteErrorSpec s vote sh = some e) ∧
    ((∃ s', s.process_vote vote sh epoch = .ok s') ↔
        processVoteErrorSpec s vote sh = none) := by
  unfold VoteState.process_vote VoteState.check_slots_are_valid
    processVoteErrorSpec
  by_cases hemp : vote.slots = []
  · simp [hemp, eq_comm]
  · rw [if_neg (by simpa using hemp), if_neg hemp]
    generalize checkSlotsLoop ((s.votes.getLast?).map Lockout.slot)
      vote.slots sh 0 sh.length = ij
    obtain ⟨i0, j0⟩ := ij
    by_cases h1 : j0 = sh.length
    · simp [h1, eq_comm]
    · rw [if_neg h1, if_neg h1]
      by_cases h2 : i0 = vote.slots.length
      · have h2' : ¬ i0 ≠ vote.slots.length := by simpa using h2
        rw [if_neg h2', if_neg h2']
        by_cases h3 : (sh.getD j0 (0, 0)).2 = vote.hash
        · have h3' : ¬ (sh.getD j0 (0, 0)).2 ≠ vote.hash := by simpa using h3
          rw [if_neg h3', if_neg h3']
          simp
        · rw [if_pos h3, if_pos h3]
          simp [eq_comm]
      · rw [if_pos h2, if_pos h2]
        simp [eq_comm]

/-! ## C6: `acquire_memory_lock` -/

/-- Membership after `HashSet::insert`. -/
theorem contains_insertKey (s : LockSet) (k k' : PublicKey) :
    (s.insertKey k').contains k = true ↔ (k = k' ∨ s.contains k = true) := by
  unfold LockSet.insertKey
  by_cases h : s.contains k' = true
  · rw [if_pos h]
    constructor
    · exact fun hk => Or.inr hk
    · rintro (rfl | hk)
      · exact h
      · exact hk
  · rw [if_neg h]
    rw [List.contains_cons]
    simp only [Bool.or_eq_true, beq_iff_eq]

/-- `acquire_memory_lock` produces one flag per call. -/
theorem acquire_length (locks : LockSet) (packet : List Tx) :
    (acquireMemoryLock locks packet).1.length = packet.length := by
  induction packet generalizing locks with
  | nil => rfl
  | cons tx rest ih => simp [acquireMemoryLock, ih]

/-- Unfolding `acquire_memory_lock` over one call. -/
theorem acquire_cons (locks : LockSet) (tx : Tx) (rest : List Tx) :
    acquireMemoryLock locks (tx :: rest) =
      ((!(locks.contains tx.call.caller || locks.contains tx.destination)) ::
          (acquireMemoryLock
            (if (locks.contains tx.call.caller ||
                  locks.contains tx.destination) then locks
             else (locks.insertKey tx.call.caller).insertKey tx.destination)
            rest).1,
        (acquireMemoryLock
          (if (locks.contains tx.call.caller ||
                locks.contains tx.destination) then locks
           else (locks.insertKey tx.call.caller).insertKey tx.destination)
          rest).2) := rfl

/-- The lock set only grows across `acquire_memory_lock`. -/
theorem acquire_state_mono (packet : List Tx) (locks : LockSet)
    (k : PublicKey) (h : locks.contains k = true) :
    (acquireMemoryLock locks packet).2.contains k = true := by
  induction packet generalizing locks with
  | nil => exact h
  | cons tx rest ih =>
    rw [acquire_cons]
    by_cases hc : (locks.contains tx.call.caller ||
        locks.contains tx.destination) = true
    · rw [if_pos hc]
      exact ih locks h
    · rw [if_neg hc]
      exact ih _ ((contains_insertKey _ _ _).mpr (Or.inr
        ((contains_insertKey _ _ _).mpr (Or.inr h))))

/-- `acquire_memory_lock` over an appended batch threads its lock set. -/
theorem acquire_append (locks : LockSet) (a b : List Tx) :
    (acquireMemoryLock locks (a ++ b)).2 =
      (acquireMemoryLock (acquireMemoryLock locks a).2 b).2 := by
  induction a generalizing locks with
  | nil => rfl
  | cons tx rest ih =>
    rw [List.cons_append, acquire_cons, acquire_cons]
    by_cases hc : (locks.contains tx.call.caller ||
        locks.contains tx.destination) = true
    · rw [if_pos hc]
      exact ih _
    · rw [if_neg hc]
      exact ih _

/-- The acquired flag of call `i` is exactly the absence of a collision
against the lock set reached after the first `i` calls. -/
theorem acquire_get_char (packet : List Tx) (locks : LockSet) (i : Nat)
    (hi : i < packet.length) :
    ((acquireMemoryLock locks packet).1.getD i false = true ↔
      txCollides (acquireMemoryLock locks (packet.take i)).2
        (packet.getD i default) = false) := by
  induction packet generalizing locks i with
  | nil => simp at hi
  | cons tx rest ih =>
    cases i with
    | zero =>
      rw [acquire_cons]
      unfold txCollides
      simp only [List.take_zero, List.getD_cons_zero]
      show (!(locks.contains tx.call.caller ||
          locks.contains tx.destination)) = true ↔ _
      rw [Bool.not_eq_true']
      exact Iff.rfl
    | succ i =>
      have hi' : i < rest.length := by simpa using hi
      rw [acquire_cons, List.take_succ_cons, acquire_cons]
      simp only [List.getD_cons_succ]
      by_cases hc : (locks.contains tx.call.caller ||
          locks.contains tx.destination) = true
      · rw [if_pos hc]
        exact ih locks i hi'
      · rw [if_neg hc]
        exact ih _ i hi'

/-- When call `i` acquires, both its keys are in the lock set reached after
the first `i + 1` calls. -/
theorem acquire_inserted (packet : List Tx) (locks : LockSet) (i : Nat)
    (hi : i < packet.length)
    (hacq : (acquireMemoryLock locks packet).1.getD i false = true) :
    ∀ k ∈ txKeys (packet.getD i default),
      (acquireMemoryLock locks (packet.take (i + 1))).2.contains k = true := by
  induction packet generalizing locks i with
  | nil => simp at hi
  | cons tx rest ih =>
    cases i with
    | zero =>
      intro k hk
      rw [acquire_cons] at hacq
      rw [List.take_succ_cons, List.take_zero, acquire_cons]
      by_cases hc : (locks.contains tx.call.caller ||
          locks.contains tx.destination) = true
      · rw [List.getD_cons_zero] at hacq
        rw [hc] at hacq
        exact Bool.noConfusion hacq
      · rw [if_neg hc]
        simp only [List.getD_cons_zero, txKeys, List.mem_cons,
          List.mem_singleton, List.not_mem_nil, or_false] at hk
        show ((locks.insertKey tx.call.caller).insertKey
          tx.destination).contains k = true
        rcases hk with rfl | rfl
        · exact (contains_insertKey _ _ _).mpr (Or.inr
            ((contains_insertKey _ _ _).mpr (Or.inl rfl)))
        · exact (contains_insertKey _ _ _).mpr (Or.inl rfl)
    | succ i =>
      have hi' : i < rest.length := by simpa using hi
      intro k hk
      rw [acquire_cons] at hacq
      rw [List.take_succ_cons, acquire_cons]
      simp only [List.getD_cons_succ] at hacq hk
      by_cases hc : (locks.contains tx.call.caller ||
          locks.contains tx.destination) = true
      · rw [if_pos hc] at hacq ⊢
        exact ih locks i hi' hacq k hk
      · rw [if_neg hc] at hacq ⊢
        exact ih _ i hi' hacq k hk

/-- Prefix lock-set states are monotone along the batch. -/
theorem acquire_take_mono (packet : List Tx) (locks : LockSet) (i j : Nat)
    (hij : i ≤ j) (k : PublicKey)
    (h : (acquireMemoryLock locks (packet.take i)).2.contains k = true) :
    (acquireMemoryLock locks (packet.take j)).2.contains k = true := by
  have hsplit : packet.take j = packet.take i ++ (packet.take j).drop i := by
    have h1 : (packet.take j).take i = packet.take i := by
      rw [List.take_take, Nat.min_eq_left hij]
    rw [← h1, List.take_append_drop]
  rw [hsplit, acquire_append]
  exact acquire_state_mono _ _ _ h

/-- C6: after `acquire_memory_lock`, (1) call `i` acquires exactly when
none of its keys were in the lock set when it was examined, (2) on
acquisition both its keys are inserted, and (3) the key sets of any two
acquired calls of the batch are pairwise disjoint — in particular a later
call colliding with an earlier acquired call does not acquire. -/
theorem claim_C6_acquire_memory_lock (locks : LockSet) (packet : List Tx) :
    (∀ i, i < packet.length →
      ((acquireMemoryLock locks packet).1.getD i false = true ↔
        txCollides (acquireMemoryLock locks (packet.take i)).2
          (packet.getD i default) = false)) ∧
    (∀ i, i < packet.length →
      (acquireMemoryLock locks packet).1.getD i false = true →
      ∀ k ∈ txKeys (packet.getD i default),
        (acquireMemoryLock locks (packet.take (i + 1))).2.contains k = true) ∧
    (∀ i j, i < j → j < packet.length →
      (acquireMemoryLock locks packet).1.getD i false = true →
      (acquireMemoryLock locks packet).1.getD j false = true →
      ∀ k ∈ txKeys (packet.getD i default),
        k ∉ txKeys (packet.getD j default)) := by
  refine ⟨fun i hi => acquire_get_char packet locks i hi,
    fun i hi hacq => acquire_inserted packet locks i hi hacq,
    fun i j hij hj hacqi hacqj k hki hkj => ?_⟩
  have hi : i < packet.length := lt_trans hij hj
  have hstate : (acquireMemoryLock locks (packet.take j)).2.contains k = true :=
    acquire_take_mono packet locks (i + 1) j hij k
      (acquire_inserted packet locks i hi hacqi k hki)
  have hnc := (acquire_get_char packet locks j hj).mp hacqj
  unfold txCollides at hnc
  rw [Bool.or_eq_false_iff] at hnc
  simp only [txKeys, List.mem_cons, List.mem_singleton,
    List.not_mem_nil, or_false] at hkj
  rcases hkj with rfl | rfl
  · rw [hnc.1] at hstate
    exact Bool.noConfusion hstate
  · rw [hnc.2] at hstate
    exact Bool.noConfusion hstate

/-! ## C7: `validate_debits` -/

/-- Index access through `zip`-then-`map`. -/
theorem getD_map_zip {α β γ : Type} (f : α × β → γ) (l1 : List α)
    (l2 : List β) (i : Nat) (h1 : i < l1.length) (h2 : i < l2.length)
    (da : α) (db : β) (dc : γ) :
    ((l1.zip l2).map f).getD i dc = f (l1.getD i da, l2.getD i db) := by
  have hz : i < (l1.zip l2).length := by
    rw [List.length_zip]
    omega
  have hm : i < ((l1.zip l2).map f).length := by
    rw [List.length_map]
    exact hz
  rw [List.getD_eq_getElem _ _ hm, List.getD_eq_getElem _ _ h1,
    List.getD_eq_getElem _ _ h2, List.getElem_map, List.getElem_zip]

/-- `validate_debits` is `validateDebitEntry` pointwise. -/
theorem validateDebits_getD (pt : PageTable) (packet : List Tx)
    (acquired : List Bool) (i : Nat) (h1 : i < packet.length)
    (h2 : i < acquired.length) :
    (validateDebits pt packet acquired).getD i none =
      validateDebitEntry pt (packet.getD i default) (acquired.getD i false) := by
  unfold validateDebits
  exact getD_map_zip _ packet acquired i h1 h2 default false none

/-- The `assert_eq!(page.owner, tx.call.caller)` of `validate_debits` holds
under `OwnerWF`: a successful lookup always reaches a page owned by the
looked-up key. -/
theorem lookup_owner (pt : PageTable) (hwf : OwnerWF pt) (k : PublicKey)
    (ix : Nat) (page : Page)
    (hl : pt.allocated_pages.lookup k = some ix)
    (hp : pt.page_table.get? ix = some page) : page.owner = k := by
  unfold AllocatedPages.lookup at hl
  rcases hfind : pt.allocated_pages.allocated.find? (fun p => p.1 == k) with
    _ | pr
  · rw [hfind] at hl
    exact Option.noConfusion hl
  · rw [hfind] at hl
    have hkey : pr.1 = k := by
      have := List.find?_some hfind
      simpa using this
    have hmem : pr ∈ pt.allocated_pages.allocated :=
      List.mem_of_find?_eq_some hfind
    have hix : pr.2 = ix := by simpa using hl
    rw [← hkey]
    exact hwf pr hmem page (hix ▸ hp)

/-- C7: for every call `i`, `from_page[i] = Some ix` exactly when the call
acquired its locks, a page is allocated for the caller at index `ix`, and
that page is owner-correct, has `version < call.version`, the call's
contract, and balance at least `fee + amount`; with `acquired[i]` false the
entry is `None`. -/
theorem claim_C7_validate_debits (pt : PageTable) (packet : List Tx)
    (acquired : List Bool) (hwf : OwnerWF pt) (i : Nat)
    (hi : i < packet.length) (ha : i < acquired.length) :
    (∀ ix, (validateDebits pt packet acquired).getD i none = some ix ↔
      (acquired.getD i false = true ∧
       pt.allocated_pages.lookup (packet.getD i default).call.caller = some ix ∧
       ∃ page, pt.page_table.get? ix = some page ∧
         page.owner = (packet.getD i default).call.caller ∧
         page.version < (packet.getD i default).call.version ∧
         page.contract = (packet.getD i default).call.contract ∧
         (packet.getD i default).call.fee + (packet.getD i default).call.amount
           ≤ page.balance)) ∧
    (acquired.getD i false = false →
      (validateDebits pt packet acquired).getD i none = none) := by
  rw [validateDebits_getD pt packet acquired i hi ha]
  generalize packet.getD i default = tx
  generalize acquired.getD i false = b
  unfold validateDebitEntry
  cases b with
  | false =>
    refine ⟨fun ix => ?_, fun _ => by simp⟩
    simp only [Bool.not_false, if_pos rfl]
    constructor
    · intro h
      exact Option.noConfusion h
    · rintro ⟨h, -⟩
      exact Bool.noConfusion h
  | true =>
    refine ⟨fun ix => ?_, fun h => Bool.noConfusion h⟩
    simp only [Bool.not_true, Bool.false_eq_true, if_false]
    rcases hl : pt.allocated_pages.lookup tx.call.caller with _ | memix
    · simp
    · show ((match pt.page_table.get? memix with
          | none => none
          | some page =>
            if page.version ≥ tx.call.version then none
            else if page.contract ≠ tx.call.contract then none
            else if page.balance ≥ tx.call.fee + tx.call.amount then
              some memix
            else none) = some ix) ↔ _
      rcases hp : pt.page_table.get? memix with _ | page
      · constructor
        · intro h
          exact Option.noConfusion h
        · rintro ⟨-, hlk, pg, hpg, -⟩
          obtain rfl : memix = ix := by simpa using hlk
          rw [hp] at hpg
          exact Option.noConfusion hpg
      · show ((if page.version ≥ tx.call.version then none
            else if page.contract ≠ tx.call.contract then none
            else if page.balance ≥ tx.call.fee + tx.call.amount then
              some memix
            else none) = some ix) ↔ _
        by_cases hv : page.version ≥ tx.call.version
        · rw [if_pos hv]
          constructor
          · intro h
            exact Option.noConfusion h
          · rintro ⟨-, hlk, pg, hpg, -, hver, -⟩
            obtain rfl : memix = ix := by simpa using hlk
            rw [hp] at hpg
            obtain rfl : page = pg := by simpa using hpg
            omega
        · rw [if_neg hv]
          by_cases hcon : page.contract ≠ tx.call.contract
          · rw [if_pos hcon]
            constructor
            · intro h
              exact Option.noConfusion h
            · rintro ⟨-, hlk, pg, hpg, -, -, hc, -⟩
              obtain rfl : memix = ix := by simpa using hlk
              rw [hp] at hpg
              obtain rfl : page = pg := by simpa using hpg
              exact (hcon hc).elim
          · rw [if_neg hcon]
            by_cases hbal : page.balance ≥ tx.call.fee + tx.call.amount
            · rw [if_pos hbal]
              constructor
              · intro h
                obtain rfl : memix = ix := by simpa using h
                exact ⟨trivial, rfl, page, hp,
                  lookup_owner pt hwf tx.call.caller memix page hl hp,
                  by omega, by simpa using hcon, hbal⟩
              · rintro ⟨-, hlk, -⟩
                rw [hlk]
            · rw [if_neg hbal]
              constructor
              · intro h
                exact Option.noConfusion h
              · rintro ⟨-, hlk, pg, hpg, -, -, -, hba⟩
                obtain rfl : memix = ix := by simpa using hlk
                rw [hp] at hpg
                obtain rfl : page = pg := by simpa using hpg
                omega

/-! ## C1/C8: invariants of the lockout stack under `process_slot` -/

/-- The vote slots are strictly ascending from front to back. -/
def AscVotes (votes : List Lockout) : Prop :=
  (votes.map Lockout.slot).Pairwise (· < ·)

/-- Position-indexed bound on confirmation counts (the inductive form): the
entry at 0-based index `i` from the front has
`confirmation_count ≤ MAX_LOCKOUT_HISTORY - i`. -/
def CcBound (votes : List Lockout) : Prop :=
  ∀ i, i < votes.length →
    (votes.getD i default).confirmation_count + i ≤ MAX_LOCKOUT_HISTORY

/-- `pop_expired_votes` only removes entries from the back: the result is a
prefix. -/
theorem popExpiredVotes_prefix (slot : Slot) (votes : List Lockout) :
    popExpiredVotes slot votes <+: votes := by
  unfold popExpiredVotes
  have hsuf : votes.reverse.dropWhile (fun v => v.is_expired slot) <:+
      votes.reverse := List.dropWhile_suffix _
  have := List.reverse_prefix.mpr hsuf
  simpa using this

/-- A prefix agrees with the list on in-range `getD`. -/
theorem IsPrefix.getD_eq {α : Type} (l1 l2 : List α) (h : l1 <+: l2) (i : Nat)
    (hi : i < l1.length) (d : α) : l2.getD i d = l1.getD i d := by
  obtain ⟨t, rfl⟩ := h
  rw [List.getD_eq_getElem _ _ hi]
  have hi2 : i < (l1 ++ t).length := by
    rw [List.length_append]
    omega
  rw [List.getD_eq_getElem _ _ hi2, List.getElem_append_left hi]

/-- `double_lockouts` preserves the number of votes. -/
theorem doubleLockoutsAux_length (n i : Nat) (l : List Lockout) :
    (doubleLockoutsAux n i l).length = l.length := by
  induction l generalizing i with
  | nil => rfl
  | cons v rest ih => simp [doubleLockoutsAux, ih]

/-- `double_lockouts` does not change any slot. -/
theorem doubleLockoutsAux_map_slot (n i : Nat) (l : List Lockout) :
    (doubleLockoutsAux n i l).map Lockout.slot = l.map Lockout.slot := by
  induction l generalizing i with
  | nil => rfl
  | cons v rest ih =>
    unfold doubleLockoutsAux
    by_cases h : n > i + v.confirmation_count
    · simp only [if_pos h, List.map_cons, ih]
    · simp only [if_neg h, List.map_cons, ih]

/-- Pointwise description of `double_lockouts`. -/
theorem doubleLockoutsAux_getD (n : Nat) (l : List Lockout) :
    ∀ i k, k < l.length →
    (doubleLockoutsAux n i l).getD k default =
      (if n > i + k + (l.getD k default).confirmation_count then
        { l.getD k default with confirmation_count :=
            (l.getD k default).confirmation_count + 1 }
      else l.getD k default) := by
  induction l with
  | nil =>
    intro i k hk
    simp at hk
  | cons v rest ih =>
    intro i k hk
    cases k with
    | zero =>
      unfold doubleLockoutsAux
      simp only [List.getD_cons_zero, Nat.add_zero]
    | succ k =>
      have hk' : k < rest.length := by simpa using hk
      unfold doubleLockoutsAux
      by_cases h : n > i + v.confirmation_count
      · rw [if_pos h]
        simp only [List.getD_cons_succ]
        rw [ih (i + 1) k hk']
        have harith : i + 1 + k = i + (k + 1) := by omega
        rw [harith]
      · rw [if_neg h]
        simp only [List.getD_cons_succ]
        rw [ih (i + 1) k hk']
        have harith : i + 1 + k = i + (k + 1) := by omega
        rw [harith]

/-- In a strictly ascending list every element is at most the last. -/
theorem mem_le_getLast (l : List Nat) (h : l.Pairwise (· < ·)) (x : Nat)
    (hx : x ∈ l) (b : Nat) (hb : l.getLast? = some b) : x ≤ b := by
  induction l with
  | nil => cases hx
  | cons a t ih =>
    cases t with
    | nil =>
      simp only [List.mem_singleton] at hx
      simp only [List.getLast?_singleton, Option.some_inj] at hb
      omega
    | cons a' t' =>
      have hb' : (a' :: t').getLast? = some b := by
        rw [List.getLast?_cons_cons] at hb
        exact hb
      rcases List.mem_cons.mp hx with rfl | hx'
      · have hbmem : b ∈ a' :: t' := List.mem_of_mem_getLast? hb'
        have : x < b := (List.pairwise_cons.mp h).1 b hbmem
        omega
      · exact ih (List.pairwise_cons.mp h).2 hx' hb'

/-- If the `process_slot` guard fails, every existing slot is below the new
one (in an ascending stack). -/
theorem all_lt_of_backSlotGe_false (votes : List Lockout) (slot : Slot)
    (hasc : AscVotes votes) (hb : backSlotGe votes slot = false) :
    ∀ v ∈ votes, v.slot < slot := by
  intro v hv
  unfold backSlotGe at hb
  rcases hlast : votes.getLast? with _ | last
  · rw [List.getLast?_eq_none_iff.mp hlast] at hv
    cases hv
  · rw [hlast] at hb
    have hlt : last.slot < slot := by
      by_contra hcon
      simp [Nat.le_of_not_lt hcon] at hb
    have hle : v.slot ≤ last.slot := by
      refine mem_le_getLast (votes.map Lockout.slot) hasc v.slot
        (List.mem_map_of_mem _ hv) last.slot ?_
      rw [List.getLast?_map, hlast]
      rfl
    exact Nat.lt_of_le_of_lt hle hlt

/-- `increment_credits` leaves the vote stack untouched. -/
theorem increment_credits_votes (s : VoteState) (epoch : Epoch) :
    (s.increment_credits epoch).votes = s.votes := rfl

/-- `increment_credits` leaves the root untouched. -/
theorem increment_credits_root (s : VoteState) (epoch : Epoch) :
    (s.increment_credits epoch).root_slot = s.root_slot := rfl

/-- Pushing a fresh vote and doubling lockouts preserves the three stack
invariants. -/
theorem push_double_inv (votes2 : List Lockout) (slot : Slot)
    (hasc : AscVotes votes2)
    (hlen : votes2.length + 1 ≤ MAX_LOCKOUT_HISTORY)
    (hcc : CcBound votes2) (hall : ∀ v ∈ votes2, v.slot < slot) :
    AscVotes (doubleLockoutsAux (votes2 ++ [Lockout.new slot]).length 0
        (votes2 ++ [Lockout.new slot])) ∧
    (doubleLockoutsAux (votes2 ++ [Lockout.new slot]).length 0
        (votes2 ++ [Lockout.new slot])).length ≤ MAX_LOCKOUT_HISTORY ∧
    CcBound (doubleLockoutsAux (votes2 ++ [Lockout.new slot]).length 0
        (votes2 ++ [Lockout.new slot])) := by
  have hlen3 : (votes2 ++ [Lockout.new slot]).length = votes2.length + 1 := by
    simp
  refine ⟨?_, ?_, ?_⟩
  · unfold AscVotes
    rw [doubleLockoutsAux_map_slot, List.map_append]
    rw [List.pairwise_append]
    refine ⟨hasc, List.pairwise_singleton _ _, ?_⟩
    intro a ha b hb
    simp only [List.map_cons, List.map_nil, List.mem_singleton] at hb
    subst hb
    obtain ⟨v, hv, rfl⟩ := List.mem_map.mp ha
    exact hall v hv
  · rw [doubleLockoutsAux_length, hlen3]
    exact hlen
  · intro i hi
    rw [doubleLockoutsAux_length] at hi
    rw [doubleLockoutsAux_getD _ _ 0 i hi]
    have hbase : ((votes2 ++ [Lockout.new slot]).getD i default).confirmation_count
        + i ≤ MAX_LOCKOUT_HISTORY := by
      by_cases hi2 : i < votes2.length
      · rw [List.getD_append _ _ _ _ hi2]
        exact hcc i hi2
      · have hieq : i = votes2.length := by
          rw [hlen3] at hi
          omega
        subst hieq
        have : (votes2 ++ [Lockout.new slot]).getD votes2.length default =
            Lockout.new slot := by
          rw [List.getD_eq_getElem _ _ (by rw [hlen3]; omega)]
          rw [List.getElem_append_right (by omega)]
          simp
        rw [this]
        show 1 + votes2.length ≤ MAX_LOCKOUT_HISTORY
        omega
    by_cases hcnd : (votes2 ++ [Lockout.new slot]).length > 0 + i +
        ((votes2 ++ [Lockout.new slot]).getD i default).confirmation_count
    · rw [if_pos hcnd]
      have : (votes2 ++ [Lockout.new slot]).length ≤ MAX_LOCKOUT_HISTORY := by
        rw [hlen3]
        exact hlen
      show ((votes2 ++ [Lockout.new slot]).getD i default).confirmation_count
          + 1 + i ≤ MAX_LOCKOUT_HISTORY
      omega
    · rw [if_neg hcnd]
      exact hbase

/-- One `process_slot` step preserves the three stack invariants. -/
theorem process_slot_inv (s : VoteState) (slot : Slot) (epoch : Epoch)
    (h1 : AscVotes s.votes) (h2 : s.votes.length ≤ MAX_LOCKOUT_HISTORY)
    (h3 : CcBound s.votes) :
    AscVotes (s.process_slot slot epoch).votes ∧
    (s.process_slot slot epoch).votes.length ≤ MAX_LOCKOUT_HISTORY ∧
    CcBound (s.process_slot slot epoch).votes := by
  by_cases hb : backSlotGe s.votes slot = true
  · unfold VoteState.process_slot
    rw [if_pos hb]
    exact ⟨h1, h2, h3⟩
  · have hbf : backSlotGe s.votes slot = false := by
      cases hbool : backSlotGe s.votes slot
      · rfl
      · exact absurd hbool hb
    have hpre := popExpiredVotes_prefix slot s.votes
    have hall : ∀ v ∈ popExpiredVotes slot s.votes, v.slot < slot := fun v hv =>
      all_lt_of_backSlotGe_false s.votes slot h1 hbf v (hpre.subset hv)
    have hasc1 : AscVotes (popExpiredVotes slot s.votes) :=
      List.Pairwise.sublist ((hpre.map Lockout.slot).sublist) h1
    have hlen1 := hpre.length_le
    have hcc1 : CcBound (popExpiredVotes slot s.votes) := by
      intro i hi
      have he := IsPrefix.getD_eq _ _ hpre i hi default
      rw [← he]
      exact h3 i (lt_of_lt_of_le hi hlen1)
    by_cases hfull : (popExpiredVotes slot s.votes).length = MAX_LOCKOUT_HISTORY
    · rcases hv1 : popExpiredVotes slot s.votes with _ | ⟨popped, rest⟩
      · rw [hv1] at hfull
        simp [MAX_LOCKOUT_HISTORY] at hfull
      · rw [hv1] at hfull hall hasc1 hcc1
        have hrest31 : rest.length + 1 = MAX_LOCKOUT_HISTORY := by
          simpa using hfull
        unfold VoteState.process_slot
        rw [if_neg hb, hv1]
        simp only [hfull, if_pos, VoteState.double_lockouts,
          increment_credits_votes]
        refine push_double_inv rest slot ?_ (by omega) ?_ ?_
        · exact (List.pairwise_cons.mp hasc1).2
        · intro i hi
          have := hcc1 (i + 1) (by simpa using Nat.succ_lt_succ hi)
          rw [List.getD_cons_succ] at this
          omega
        · intro v hv
          exact hall v (List.mem_cons_of_mem _ hv)
    · unfold VoteState.process_slot
      rw [if_neg hb]
      have hlen2 : (popExpiredVotes slot s.votes).length + 1 ≤
          MAX_LOCKOUT_HISTORY := by
        have hx : (popExpiredVotes slot s.votes).length ≤ MAX_LOCKOUT_HISTORY :=
          le_trans hlen1 h2
        have hne := hfull
        have h31 : MAX_LOCKOUT_HISTORY = 31 := rfl
        rw [h31] at hx hne ⊢
        omega
      rcases hv1 : popExpiredVotes slot s.votes with _ | ⟨popped, rest⟩
      · rw [hv1] at hasc1 hcc1 hall hlen2
        simp only [hv1, List.length_nil, VoteState.double_lockouts]
        rw [if_neg (by rw [hv1] at hfull; simpa using hfull)]
        exact push_double_inv [] slot hasc1 hlen2 hcc1 hall
      · rw [hv1] at hasc1 hcc1 hall hlen2 hfull
        simp only [hv1, VoteState.double_lockouts]
        rw [if_neg hfull]
        exact push_double_inv (popped :: rest) slot hasc1 hlen2 hcc1 hall

/-- The three stack invariants hold along any run of `process_slot`. -/
theorem runProcessSlots_inv (l : List (Slot × Epoch)) :
    ∀ s : VoteState, AscVotes s.votes →
      s.votes.length ≤ MAX_LOCKOUT_HISTORY → CcBound s.votes →
      AscVotes (runProcessSlots s l).votes ∧
      (runProcessSlots s l).votes.length ≤ MAX_LOCKOUT_HISTORY ∧
      CcBound (runProcessSlots s l).votes := by
  induction l with
  | nil => exact fun s h1 h2 h3 => ⟨h1, h2, h3⟩
  | cons p rest ih =>
    intro s h1 h2 h3
    obtain ⟨g1, g2, g3⟩ := process_slot_inv s p.1 p.2 h1 h2 h3
    exact ih (s.process_slot p.1 p.2) g1 g2 g3

/-- C1 (amended): for every `VoteState` reachable from a fresh state by
`process_slot` calls, the votes deque is strictly ascending by slot and its
length never exceeds `MAX_LOCKOUT_HISTORY`; the per-entry bound that holds
is `confirmation_count + i ≤ MAX_LOCKOUT_HISTORY` for the entry at 0-based
index `i` from the front (the claimed bound `confirmation_count ≤ len - i`
fails once expiration shrinks the stack, see the counterexample). -/
theorem claim_C1_stack_invariants (l : List (Slot × Epoch)) :
    AscVotes (runProcessSlots VoteState.default l).votes ∧
    (runProcessSlots VoteState.default l).votes.length ≤ MAX_LOCKOUT_HISTORY ∧
    CcBound (runProcessSlots VoteState.default l).votes := by
  refine runProcessSlots_inv l VoteState.default ?_ ?_ ?_
  · exact List.Pairwise.nil
  · show 0 ≤ MAX_LOCKOUT_HISTORY
    omega
  · intro i hi
    simp [VoteState.default] at hi

/-- C1's claimed bound `confirmation_count ≤ len(votes) - i` is false on the
reachable state after processing slots 0, 1, 2, 6: the stack is then
`[(0, conf 3), (6, conf 1)]` and the front entry has `3 > 2 - 0`. -/
theorem claim_C1_counterexample :
    ¬ (∀ i, i < (runProcessSlots VoteState.default
          [(0, 0), (1, 0), (2, 0), (6, 0)]).votes.length →
        ((runProcessSlots VoteState.default
            [(0, 0), (1, 0), (2, 0), (6, 0)]).votes.getD i
              default).confirmation_count ≤
          (runProcessSlots VoteState.default
            [(0, 0), (1, 0), (2, 0), (6, 0)]).votes.length - i) := by
  decide

/-- Order on optional roots: `none` precedes everything; a set root never
unsets and never decreases. -/
def rootLe : Option Slot → Option Slot → Prop
  | none, _ => True
  | some _, none => False
  | some a, some b => a ≤ b

theorem rootLe_refl (r : Option Slot) : rootLe r r := by
  cases r with
  | none => trivial
  | some a => exact Nat.le_refl a

theorem rootLe_trans (a b c : Option Slot) (h1 : rootLe a b)
    (h2 : rootLe b c) : rootLe a c := by
  cases a with
  | none => trivial
  | some x =>
    cases b with
    | none => cases h1
    | some y =>
      cases c with
      | none => cases h2
      | some z => exact Nat.le_trans h1 h2

/-- The root, when set, undercuts every stacked vote (and the stack is
non-empty). -/
def RootInv (s : VoteState) : Prop :=
  ∀ r, s.root_slot = some r → s.votes ≠ [] ∧ ∀ v ∈ s.votes, r < v.slot

/-- The combined vote tower invariant. -/
def TowerInv (s : VoteState) : Prop :=
  AscVotes s.votes ∧ s.votes.length ≤ MAX_LOCKOUT_HISTORY ∧
    CcBound s.votes ∧ RootInv s

/-- `process_slot` when the monotonicity guard fires. -/
theorem process_slot_eq_ignore (s : VoteState) (slot : Slot) (epoch : Epoch)
    (hb : backSlotGe s.votes slot = true) :
    s.process_slot slot epoch = s := by
  unfold VoteState.process_slot
  rw [if_pos hb]

/-- `process_slot` when the stack (after expiry) is not full. -/
theorem process_slot_eq_notfull (s : VoteState) (slot : Slot) (epoch : Epoch)
    (hb : ¬ backSlotGe s.votes slot = true)
    (hnf : (popExpiredVotes slot s.votes).length ≠ MAX_LOCKOUT_HISTORY) :
    s.process_slot slot epoch =
      VoteState.double_lockouts
        { s with votes := popExpiredVotes slot s.votes ++ [Lockout.new slot] } := by
  unfold VoteState.process_slot
  rw [if_neg hb]
  simp only [if_neg hnf]

/-- `process_slot` when the stack (after expiry) is full: the front pops to
the root, credits increment, and the new vote pushes. -/
theorem process_slot_eq_full (s : VoteState) (slot : Slot) (epoch : Epoch)
    (popped : Lockout) (rest : List Lockout)
    (hb : ¬ backSlotGe s.votes slot = true)
    (hv1 : popExpiredVotes slot s.votes = popped :: rest)
    (hfull : (popped :: rest).length = MAX_LOCKOUT_HISTORY) :
    s.process_slot slot epoch =
      VoteState.double_lockouts
        { (VoteState.increment_credits
            { s with votes := rest, root_slot := some popped.slot } epoch) with
          votes := rest ++ [Lockout.new slot] } := by
  unfold VoteState.process_slot
  rw [if_neg hb]
  simp only [hv1, if_pos hfull]
  rfl

/-- Votes after the full-stack branch of `process_slot`. -/
theorem votes_after_full (s : VoteState) (epoch : Epoch) (popped : Lockout)
    (rest : List Lockout) (slot : Slot) :
    (VoteState.double_lockouts
      { (VoteState.increment_credits
          { s with votes := rest, root_slot := some popped.slot } epoch) with
        votes := rest ++ [Lockout.new slot] }).votes =
      doubleLockoutsAux (rest ++ [Lockout.new slot]).length 0
        (rest ++ [Lockout.new slot]) := rfl

/-- Root after the full-stack branch of `process_slot`. -/
theorem root_after_full (s : VoteState) (epoch : Epoch) (popped : Lockout)
    (rest : List Lockout) (slot : Slot) :
    (VoteState.double_lockouts
      { (VoteState.increment_credits
          { s with votes := rest, root_slot := some popped.slot } epoch) with
        votes := rest ++ [Lockout.new slot] }).root_slot =
      some popped.slot := rfl

/-- Votes after the not-full branch of `process_slot`. -/
theorem votes_after_notfull (s : VoteState) (slot : Slot) :
    (VoteState.double_lockouts
      { s with votes := popExpiredVotes slot s.votes ++
          [Lockout.new slot] }).votes =
      doubleLockoutsAux (popExpiredVotes slot s.votes ++
          [Lockout.new slot]).length 0
        (popExpiredVotes slot s.votes ++ [Lockout.new slot]) := rfl

/-- Root after the not-full branch of `process_slot`. -/
theorem root_after_notfull (s : VoteState) (slot : Slot) :
    (VoteState.double_lockouts
      { s with votes := popExpiredVotes slot s.votes ++
          [Lockout.new slot] }).root_slot = s.root_slot := rfl

/-- One `process_slot` step preserves `TowerInv` and never moves the root
backwards. -/
theorem process_slot_root_step (s : VoteState) (slot : Slot) (epoch : Epoch)
    (h : TowerInv s) :
    TowerInv (s.process_slot slot epoch) ∧
    rootLe s.root_slot (s.process_slot slot epoch).root_slot := by
  obtain ⟨h1, h2, h3, h4⟩ := h
  obtain ⟨g1, g2, g3⟩ := process_slot_inv s slot epoch h1 h2 h3
  by_cases hb : backSlotGe s.votes slot = true
  · rw [process_slot_eq_ignore s slot epoch hb] at g1 g2 g3 ⊢
    exact ⟨⟨g1, g2, g3, h4⟩, rootLe_refl _⟩
  · have hbf : backSlotGe s.votes slot = false := by
      cases hbool : backSlotGe s.votes slot
      · rfl
      · exact absurd hbool hb
    have hpre := popExpiredVotes_prefix slot s.votes
    have hallv : ∀ v ∈ s.votes, v.slot < slot :=
      all_lt_of_backSlotGe_false s.votes slot h1 hbf
    by_cases hfull : (popExpiredVotes slot s.votes).length = MAX_LOCKOUT_HISTORY
    · rcases hv1 : popExpiredVotes slot s.votes with _ | ⟨popped, rest⟩
      · rw [hv1] at hfull
        simp [MAX_LOCKOUT_HISTORY] at hfull
      · have heq := process_slot_eq_full s slot epoch popped rest hb hv1
          (by rw [← hv1]; exact hfull)
        rw [heq] at g1 g2 g3 ⊢
        have hpm : popped ∈ s.votes := hpre.subset (by
          rw [hv1]
          exact List.mem_cons_self _ _)
        refine ⟨⟨g1, g2, g3, ?_⟩, ?_⟩
        · intro r hr
          rw [root_after_full] at hr
          obtain rfl : popped.slot = r := Option.some_inj.mp hr
          constructor
          · intro hcon
            rw [votes_after_full] at hcon
            have hlencon := congrArg List.length hcon
            rw [doubleLockoutsAux_length] at hlencon
            simp at hlencon
          · intro v hv
            rw [votes_after_full] at hv
            have hvs : v.slot ∈ ((rest ++ [Lockout.new slot]).map
                Lockout.slot) := by
              have hmm := List.mem_map_of_mem Lockout.slot hv
              rw [doubleLockoutsAux_map_slot] at hmm
              exact hmm
            rw [List.map_append] at hvs
            rcases List.mem_append.mp hvs with hin | hin
            · have hasc1 : AscVotes (popped :: rest) := by
                rw [← hv1]
                exact List.Pairwise.sublist ((hpre.map Lockout.slot).sublist) h1
              obtain ⟨w, hw, hws⟩ := List.mem_map.mp hin
              have hlt : popped.slot < w.slot :=
                (List.pairwise_cons.mp hasc1).1 w.slot
                  (List.mem_map_of_mem _ hw)
              rw [← hws]
              exact hlt
            · simp only [List.map_cons, List.map_nil,
                List.mem_singleton] at hin
              have hps : popped.slot < slot := hallv popped hpm
              show popped.slot < v.slot
              rw [hin]
              exact hps
        · rw [root_after_full]
          cases hr0 : s.root_slot with
          | none => trivial
          | some r0 =>
            have hr0lt : r0 < popped.slot := (h4 r0 hr0).2 popped hpm
            show r0 ≤ popped.slot
            exact Nat.le_of_lt hr0lt
    · have heq := process_slot_eq_notfull s slot epoch hb hfull
      rw [heq] at g1 g2 g3 ⊢
      refine ⟨⟨g1, g2, g3, ?_⟩, ?_⟩
      · intro r hr
        rw [root_after_notfull] at hr
        obtain ⟨hne, hlt⟩ := h4 r hr
        constructor
        · intro hcon
          rw [votes_after_notfull] at hcon
          have hlencon := congrArg List.length hcon
          rw [doubleLockoutsAux_length] at hlencon
          simp at hlencon
        · intro v hv
          rw [votes_after_notfull] at hv
          have hvs : v.slot ∈ ((popExpiredVotes slot s.votes ++
              [Lockout.new slot]).map Lockout.slot) := by
            have hmm := List.mem_map_of_mem Lockout.slot hv
            rw [doubleLockoutsAux_map_slot] at hmm
            exact hmm
          rw [List.map_append] at hvs
          rcases List.mem_append.mp hvs with hin | hin
          · obtain ⟨w, hw, hws⟩ := List.mem_map.mp hin
            have hrw : r < w.slot := hlt w (hpre.subset hw)
            rw [← hws]
            exact hrw
          · simp only [List.map_cons, List.map_nil,
              List.mem_singleton] at hin
            obtain ⟨m, hm⟩ := List.exists_mem_of_ne_nil s.votes hne
            have h1m : r < m.slot := hlt m hm
            have h2m : m.slot < slot := hallv m hm
            rw [hin]
            exact Nat.lt_trans h1m h2m
      · rw [root_after_notfull]
        exact rootLe_refl _

/-- `TowerInv` and root monotonicity along any run. -/
theorem runProcessSlots_root (l : List (Slot × Epoch)) :
    ∀ s : VoteState, TowerInv s →
      TowerInv (runProcessSlots s l) ∧
      rootLe s.root_slot (runProcessSlots s l).root_slot := by
  induction l with
  | nil => exact fun s h => ⟨h, rootLe_refl _⟩
  | cons p rest ih =>
    intro s h
    obtain ⟨hstep, hle⟩ := process_slot_root_step s p.1 p.2 h
    obtain ⟨hinv, hle2⟩ := ih (s.process_slot p.1 p.2) hstep
    exact ⟨hinv, rootLe_trans _ _ _ hle hle2⟩

/-- The fresh state satisfies `TowerInv`. -/
theorem towerInv_default : TowerInv VoteState.default := by
  refine ⟨List.Pairwise.nil, by decide, ?_, ?_⟩
  · intro i hi
    simp [VoteState.default] at hi
  · intro r hr
    simp [VoteState.default] at hr

/-- C8: along any run of `process_slot` from a fresh state, the root never
unsets and never decreases (`rootLe` across any extension of the run), and
whenever it is `Some r`, `r` is below every stacked vote's slot. -/
theorem claim_C8_root_monotone (l1 l2 : List (Slot × Epoch)) :
    rootLe (runProcessSlots VoteState.default l1).root_slot
      (runProcessSlots VoteState.default (l1 ++ l2)).root_slot ∧
    (∀ r, (runProcessSlots VoteState.default l1).root_slot = some r →
      ∀ v ∈ (runProcessSlots VoteState.default l1).votes, r < v.slot) := by
  have h1 := runProcessSlots_root l1 VoteState.default towerInv_default
  constructor
  · have happ : runProcessSlots VoteState.default (l1 ++ l2) =
        runProcessSlots (runProcessSlots VoteState.default l1) l2 := by
      unfold runProcessSlots
      rw [List.foldl_append]
    rw [happ]
    exact (runProcessSlots_root l2 _ h1.1).2
  · exact fun r hr => (h1.1.2.2.2 r hr).2

/-! ## C5: after a successful `process_vote` the newest vote is the largest
voted slot -/

/-- `foldl max` with an arbitrary seed. -/
theorem foldl_max_init (b : Nat) (l : List Nat) :
    l.foldl max b = max b (l.foldl max 0) := by
  induction l generalizing b with
  | nil => simp
  | cons x t ih =>
    simp only [List.foldl_cons]
    rw [ih (max b x), ih (max 0 x)]
    omega

/-- Every member is bounded by `foldl max 0`. -/
theorem mem_le_foldl_max (x : Nat) (l : List Nat) (hx : x ∈ l) :
    x ≤ l.foldl max 0 := by
  induction l with
  | nil => cases hx
  | cons a t ih =>
    simp only [List.foldl_cons]
    rw [foldl_max_init (max 0 a)]
    rcases List.mem_cons.mp hx with rfl | hx'
    · omega
    · have := ih hx'
      omega

/-- One `process_slot` step moves the newest slot to
`max (old newest) slot` (or `slot` on an empty stack). -/
theorem process_slot_back_slot (s : VoteState) (slot : Slot) (epoch : Epoch) :
    ((s.process_slot slot epoch).votes.getLast?).map Lockout.slot =
      some (match (s.votes.getLast?).map Lockout.slot with
            | none => slot
            | some b => max b slot) := by
  by_cases hb : backSlotGe s.votes slot = true
  · rw [process_slot_eq_ignore s slot epoch hb]
    unfold backSlotGe at hb
    rcases hlast : s.votes.getLast? with _ | old
    · rw [hlast] at hb
      exact Bool.noConfusion hb
    · rw [hlast] at hb
      have hle : slot ≤ old.slot := by simpa using hb
      simp only [Option.map_some']
      congr 1
      show old.slot = max old.slot slot
      exact (Nat.max_eq_left hle).symm
  · have hback : ((s.process_slot slot epoch).votes.getLast?).map
        Lockout.slot = some slot := by
      by_cases hfull :
          (popExpiredVotes slot s.votes).length = MAX_LOCKOUT_HISTORY
      · rcases hv1 : popExpiredVotes slot s.votes with _ | ⟨popped, rest⟩
        · rw [hv1] at hfull
          simp [MAX_LOCKOUT_HISTORY] at hfull
        · rw [process_slot_eq_full s slot epoch popped rest hb hv1
            (by rw [← hv1]; exact hfull)]
          rw [votes_after_full, ← List.getLast?_map,
            doubleLockoutsAux_map_slot, List.map_append]
          simp [Lockout.new]
      · rw [process_slot_eq_notfull s slot epoch hb hfull,
          votes_after_notfull, ← List.getLast?_map,
          doubleLockoutsAux_map_slot, List.map_append]
        simp [Lockout.new]
    rw [hback]
    rcases hlast : s.votes.getLast? with _ | old
    · rfl
    · have hlt : old.slot < slot := by
        unfold backSlotGe at hb
        rw [hlast] at hb
        have hb2 : ¬ slot ≤ old.slot := by
          intro hle2
          exact hb (by simp [hle2])
        exact Nat.lt_of_not_le hb2
      simp only [Option.map_some']
      congr 1
      show slot = max old.slot slot
      exact (Nat.max_eq_right (Nat.le_of_lt hlt)).symm

/-- Folding `process_slot` over a slot list folds `max` over the newest
slot. -/
theorem fold_process_slot_back (slots : List Slot) (epoch : Epoch) :
    ∀ (s : VoteState) (b : Nat),
      (s.votes.getLast?).map Lockout.slot = some b →
      (((slots.foldl (fun st sl => st.process_slot sl epoch) s).votes.getLast?).map
        Lockout.slot) = some (slots.foldl max b) := by
  induction slots with
  | nil =>
    intro s b hb
    simpa using hb
  | cons a rest ih =>
    intro s b hb
    simp only [List.foldl_cons]
    refine ih (s.process_slot a epoch) (max b a) ?_
    rw [process_slot_back_slot, hb]

/-- When every vote slot is at most the newest existing vote, the witness
walk never consumes an entry (`j` never moves). -/
theorem checkSlotsLoop_all_old (b : Slot) (slots : List Slot)
    (sh : List SlotHash) (hall : ∀ x ∈ slots, x ≤ b) :
    ∀ i j, (checkSlotsLoop (some b) slots sh i j).2 = j := by
  suffices h : ∀ k i j, slots.length - i ≤ k →
      (checkSlotsLoop (some b) slots sh i j).2 = j by
    intro i j
    exact h slots.length i j (by omega)
  intro k
  induction k with
  | zero =>
    intro i j hk
    unfold checkSlotsLoop
    rw [if_neg (by omega)]
  | succ k ih =>
    intro i j hk
    unfold checkSlotsLoop
    by_cases hg : i < slots.length ∧ 0 < j
    · rw [if_pos hg]
      have hmem : slots.getD i 0 ∈ slots := by
        rw [List.getD_eq_getElem _ _ hg.1]
        exact List.getElem_mem _
      have hle : slots.getD i 0 ≤ b := hall _ hmem
      rw [if_pos (decide_eq_true hle)]
      exact ih (i + 1) j (by omega)
    · rw [if_neg hg]

/-- C5: whenever `process_vote` returns `Ok`, the newest vote's slot equals
the largest slot of `vote.slots` (`foldl max 0`, and `vote.slots` is
non-empty on the `Ok` path). -/
theorem claim_C5_newest_vote (s : VoteState) (vote : Vote)
    (sh : List SlotHash) (epoch : Epoch) (s' : VoteState)
    (hok : s.process_vote vote sh epoch = .ok s') :
    (s'.votes.getLast?).map Lockout.slot =
      some (vote.slots.foldl max 0) := by
  unfold VoteState.process_vote at hok
  by_cases hemp : vote.slots.isEmpty
  · rw [if_pos hemp] at hok
    exact Except.noConfusion hok
  · rw [if_neg hemp] at hok
    cases hchk : s.check_slots_are_valid vote sh with
    | error e =>
      rw [hchk] at hok
      exact Except.noConfusion hok
    | ok u =>
      rw [hchk] at hok
      obtain rfl :
          (vote.slots.foldl (fun st sl => st.process_slot sl epoch) s) = s' := by
        simpa using hok
      rcases hlast : s.votes.getLast? with _ | back
      · cases hslots : vote.slots with
        | nil =>
          rw [hslots] at hemp
          simp at hemp
        | cons a rest =>
          simp only [List.foldl_cons]
          have h1 : (((s.process_slot a epoch).votes.getLast?).map
              Lockout.slot) = some a := by
            rw [process_slot_back_slot, hlast]
            rfl
          rw [fold_process_slot_back rest epoch (s.process_slot a epoch) a h1]
          congr 1
          rw [foldl_max_init a rest]
          rw [foldl_max_init (max 0 a) rest]
          omega
      · have hb0 : (s.votes.getLast?).map Lockout.slot = some back.slot := by
          rw [hlast]
          rfl
        have hex : ∃ x ∈ vote.slots, back.slot < x := by
          by_contra hcon
          push_neg at hcon
          have hallj := checkSlotsLoop_all_old back.slot vote.slots sh
            (fun x hx => hcon x hx) 0 sh.length
          unfold VoteState.check_slots_are_valid at hchk
          rw [hb0] at hchk
          rw [if_pos hallj] at hchk
          exact Except.noConfusion hchk
        rw [fold_process_slot_back vote.slots epoch s back.slot hb0]
        congr 1
        obtain ⟨x, hx, hbx⟩ := hex
        have h2 := mem_le_foldl_max x vote.slots hx
        rw [foldl_max_init back.slot vote.slots]
        exact Nat.max_eq_right (Nat.le_trans (Nat.le_of_lt hbx) h2)

/-- C5 witness: a concrete successful vote on slot 3 leaves newest slot 3. -/
theorem claim_C5_witness :
    ((({ VoteState.default with votes := [Lockout.new 3] } :
        VoteState).votes.getLast?).map Lockout.slot) =
      some (([3] : List Slot).foldl max 0) :=
  claim_C5_newest_vote VoteState.default ⟨[3], 0, none⟩ [(3, 0)] 0
    { VoteState.default with votes := [Lockout.new 3] } (by
      simp [VoteState.process_vote, VoteState.check_slots_are_valid,
        checkSlotsLoop, VoteState.process_slot, popExpiredVotes,
        doubleLockoutsAux, backSlotGe, Lockout.new, Lockout.is_expired,
        VoteState.double_lockouts, VoteState.default, MAX_LOCKOUT_HISTORY])

/-! ## Witness instances for the Page Engine claims -/

/-- A one-page table: key 1 owns page 0 with balance 10, default contract. -/
def c7page : Page :=
  { owner := 1, contract := 0, balance := 10, version := 0, memhash := 0,
    memory := [] }

def c7pt : PageTable :=
  { page_table := [c7page],
    allocated_pages := { max := 1, allocated := [(1, 0)], free := [] },
    mem_locks := [] }

/-- A transfer call: caller 1 sends 5 to key 2 with fee 1. -/
def c7call : Call :=
  { caller := 1, contract := 0, amount := 5, fee := 1, version := 1,
    method := 128, user_data := .uAmount 5 }

def c7tx : Tx := { call := c7call, destination := 2 }

/-- `c7pt` satisfies the owner invariant. -/
theorem c7pt_ownerWF : OwnerWF c7pt := by
  intro p hp page hpg
  simp only [c7pt, List.mem_singleton] at hp
  subst hp
  simp only [c7pt] at hpg
  have hpage : page = c7page := by
    cases hpg
    rfl
  rw [hpage]
  rfl

/-- C7 witness: the concrete transfer call validates against page 0. -/
theorem claim_C7_witness :
    (validateDebits c7pt [c7tx] [true]).getD 0 none = some 0 :=
  ((claim_C7_validate_debits c7pt [c7tx] [true] c7pt_ownerWF 0
      (by decide) (by decide)).1 0).mpr
    ⟨by decide, by simp [c7pt, c7tx, c7call, AllocatedPages.lookup], c7page,
      by simp [c7pt], by decide, by decide, by decide, by decide⟩

/-! ## C2: balance accounting of the Page Engine pipeline -/

/-- Sum of balances after a `set`, in addition form. -/
theorem sum_map_set (l : List Page) :
    ∀ (i : Nat) (p : Page), i < l.length →
    ((l.set i p).map Page.balance).sum + (l.getD i Page.default).balance =
      (l.map Page.balance).sum + p.balance := by
  induction l with
  | nil =>
    intro i p hi
    simp at hi
  | cons a rest ih =>
    intro i p hi
    cases i with
    | zero => simp [List.set_cons_zero]; omega
    | succ i =>
      have hi' : i < rest.length := by simpa using hi
      simp only [List.set_cons_succ, List.map_cons, List.sum_cons,
        List.getD_cons_succ]
      have := ih i p hi'
      omega

/-- `getD` is unchanged off the set index. -/
theorem getD_set_ne (l : List Page) :
    ∀ (i k : Nat) (p : Page), k ≠ i →
    (l.set i p).getD k Page.default = l.getD k Page.default := by
  induction l with
  | nil => intro i k p _; simp
  | cons a rest ih =>
    intro i k p hk
    cases i with
    | zero =>
      cases k with
      | zero => exact absurd rfl hk
      | succ k => simp [List.set_cons_zero]
    | succ i =>
      cases k with
      | zero => simp [List.set_cons_succ]
      | succ k =>
        simp only [List.set_cons_succ, List.getD_cons_succ]
        exact ih i k p (by omega)

/-- Spendable and unspendable totals partition the loaded balances. -/
theorem spend_unspend_sum (tx : Tx) (pages : List Page) :
    spendableTotal tx pages + unspendableTotal tx pages =
      (pages.map Page.balance).sum := by
  induction pages with
  | nil => rfl
  | cons p rest ih =>
    unfold spendableTotal unspendableTotal at ih ⊢
    simp only [List.map_cons, List.sum_cons]
    by_cases hc : p.contract = tx.call.contract
    · rw [if_pos hc, if_neg (by simpa using hc)]
      omega
    · rw [if_neg hc, if_pos (by simpa using hc)]
      omega

/-- Dispatch keeps the two loaded pages as two pages. -/
theorem dispatchCall_length_two (tx : Tx) (a b : Page) :
    (dispatchCall tx [a, b]).length = 2 := by
  unfold dispatchCall
  split_ifs with h0 h1 h2
  · rfl
  · show (if tx.call.contract = DEFAULT_CONTRACT ∧
        a.contract = DEFAULT_CONTRACT then
          ({ a with contract := tx.call.user_data.asKey } : Page) :: [b]
        else a :: [b]).length = 2
    split_ifs <;> rfl
  · rfl
  · rfl

/-- The balance sum of a two-element list. -/
theorem two_sum (l : List Page) (h : l.length = 2) :
    (l.map Page.balance).sum =
      (l.getD 0 Page.default).balance + (l.getD 1 Page.default).balance := by
  match l, h with
  | [a, b], _ => simp

/-- Zeta-expanded form of `execCall`. -/
theorem execCall_eq (table : List Page) (tx : Tx) (fix tix : Nat) :
    execCall table tx fix tix =
      if spendableTotal tx (dispatchCall tx
            (loadedPages (feeCharged table tx fix) fix tix)) +
          unspendableTotal tx (dispatchCall tx
            (loadedPages (feeCharged table tx fix) fix tix)) =
          spendableTotal tx (loadedPages (feeCharged table tx fix) fix tix) +
          unspendableTotal tx
            (loadedPages (feeCharged table tx fix) fix tix) ∧
        spendableTotal tx (dispatchCall tx
            (loadedPages (feeCharged table tx fix) fix tix)) =
          spendableTotal tx (loadedPages (feeCharged table tx fix) fix tix)
      then
        ((feeCharged table tx fix).set fix
          ((dispatchCall tx (loadedPages (feeCharged table tx fix) fix tix)).getD
            0 Page.default)).set tix
          ((dispatchCall tx (loadedPages (feeCharged table tx fix) fix tix)).getD
            1 Page.default)
      else feeCharged table tx fix := rfl

/-- Charging the fee preserves length. -/
theorem feeCharged_length (table : List Page) (tx : Tx) (fix : Nat) :
    (feeCharged table tx fix).length = table.length := by
  simp [feeCharged]

/-- Charging the fee changes only the caller's page. -/
theorem feeCharged_getD_ne (table : List Page) (tx : Tx) (fix k : Nat)
    (hk : k ≠ fix) :
    (feeCharged table tx fix).getD k Page.default =
      table.getD k Page.default := by
  unfold feeCharged
  exact getD_set_ne table fix k _ hk

/-- Balance accounting of the fee debit (exact because the fee is covered). -/
theorem feeCharged_sum (table : List Page) (tx : Tx) (fix : Nat)
    (hf : fix < table.length)
    (hfee : tx.call.fee ≤ (table.getD fix Page.default).balance) :
    ((feeCharged table tx fix).map Page.balance).sum + tx.call.fee =
      (table.map Page.balance).sum := by
  have h := sum_map_set table fix
    { table.getD fix Page.default with
      balance := (table.getD fix Page.default).balance - tx.call.fee } hf
  have heq : feeCharged table tx fix = table.set fix
      { table.getD fix Page.default with
        balance := (table.getD fix Page.default).balance - tx.call.fee } := rfl
  have hb : ({ table.getD fix Page.default with
      balance := (table.getD fix Page.default).balance - tx.call.fee } :
        Page).balance =
      (table.getD fix Page.default).balance - tx.call.fee := rfl
  rw [hb] at h
  rw [heq]
  omega

/-- Balance sum of the two loaded pages. -/
theorem loadedPages_sum (tx : Tx) (t1 : List Page) (fix tix : Nat) :
    ((loadedPages t1 fix tix).map Page.balance).sum =
      (t1.getD fix Page.default).balance +
        (t1.getD tix Page.default).balance := by
  simp [loadedPages]

/-- `execCall` burns exactly the fee of the call. -/
theorem execCall_total (table : List Page) (tx : Tx) (fix tix : Nat)
    (hne : fix ≠ tix) (hf : fix < table.length) (ht : tix < table.length)
    (hfee : tx.call.fee ≤ (table.getD fix Page.default).balance) :
    ((execCall table tx fix tix).map Page.balance).sum + tx.call.fee =
      (table.map Page.balance).sum := by
  rw [execCall_eq]
  have hfeesum := feeCharged_sum table tx fix hf hfee
  split_ifs with hc
  · have hlen2 : (dispatchCall tx
        (loadedPages (feeCharged table tx fix) fix tix)).length = 2 := by
      unfold loadedPages
      exact dispatchCall_length_two tx _ _
    have hcp := two_sum _ hlen2
    have hpart1 := spend_unspend_sum tx (dispatchCall tx
        (loadedPages (feeCharged table tx fix) fix tix))
    have hpart2 := spend_unspend_sum tx
      (loadedPages (feeCharged table tx fix) fix tix)
    have hlsum := loadedPages_sum tx (feeCharged table tx fix) fix tix
    have hfx : fix < (feeCharged table tx fix).length := by
      rw [feeCharged_length]
      exact hf
    have htx : tix < ((feeCharged table tx fix).set fix
        ((dispatchCall tx (loadedPages (feeCharged table tx fix) fix
          tix)).getD 0 Page.default)).length := by
      rw [List.length_set, feeCharged_length]
      exact ht
    have e1 := sum_map_set (feeCharged table tx fix) fix
      ((dispatchCall tx (loadedPages (feeCharged table tx fix) fix
        tix)).getD 0 Page.default) hfx
    have e2 := sum_map_set ((feeCharged table tx fix).set fix
        ((dispatchCall tx (loadedPages (feeCharged table tx fix) fix
          tix)).getD 0 Page.default)) tix
      ((dispatchCall tx (loadedPages (feeCharged table tx fix) fix
        tix)).getD 1 Page.default) htx
    have hgd : ((feeCharged table tx fix).set fix
        ((dispatchCall tx (loadedPages (feeCharged table tx fix) fix
          tix)).getD 0 Page.default)).getD tix Page.default =
        (feeCharged table tx fix).getD tix Page.default :=
      getD_set_ne _ fix tix _ (fun hcon => hne hcon.symm)
    rw [hgd] at e2
    omega
  · exact hfeesum

/-- `execCall` preserves the table length. -/
theorem execCall_length (table : List Page) (tx : Tx) (fix tix : Nat) :
    (execCall table tx fix tix).length = table.length := by
  rw [execCall_eq]
  split_ifs <;> simp [feeCharged]

/-- `execCall` touches only the two indices of the call. -/
theorem execCall_getD_ne (table : List Page) (tx : Tx) (fix tix k : Nat)
    (hk1 : k ≠ fix) (hk2 : k ≠ tix) :
    (execCall table tx fix tix).getD k Page.default =
      table.getD k Page.default := by
  rw [execCall_eq]
  split_ifs with hc
  · rw [getD_set_ne _ tix k _ hk2, getD_set_ne _ fix k _ hk1]
    exact feeCharged_getD_ne table tx fix k hk1
  · exact feeCharged_getD_ne table tx fix k hk1

/-- The per-item facts `par_execute` needs of a batch plan: each loaded
call's two indices are distinct and in bounds, and the caller's page covers
`fee + amount`. -/
def PlanOk (table : List Page) (items : List (Tx × Option (Nat × Nat))) :
    Prop :=
  ∀ it ∈ items, ∀ f t : Nat, it.2 = some (f, t) →
    f ≠ t ∧ f < table.length ∧ t < table.length ∧
    it.1.call.fee + it.1.call.amount ≤ (table.getD f Page.default).balance

/-- Pairwise index-disjointness of the loaded calls of a batch plan. -/
def PlanDisjoint (items : List (Tx × Option (Nat × Nat))) : Prop :=
  items.Pairwise (fun a b => ∀ fa ta fb tb : Nat, a.2 = some (fa, ta) →
    b.2 = some (fb, tb) → fa ≠ fb ∧ fa ≠ tb ∧ ta ≠ fb ∧ ta ≠ tb)

/-- `par_execute` burns exactly the fees of the loaded calls. -/
theorem parExecuteGo_total (items : List (Tx × Option (Nat × Nat))) :
    ∀ table : List Page, PlanOk table items → PlanDisjoint items →
    ((parExecuteGo table items).map Page.balance).sum +
      (items.map (fun p => if p.2.isSome then p.1.call.fee else 0)).sum =
      (table.map Page.balance).sum := by
  induction items with
  | nil =>
    intro table _ _
    simp [parExecuteGo]
  | cons it rest ih =>
    intro table hok hpw
    match hit : it with
    | (tx, none) =>
      have hgo : parExecuteGo table ((tx, none) :: rest) =
          parExecuteGo table rest := rfl
      rw [hgo]
      have hok' : PlanOk table rest := fun it' hmem f t h =>
        hok it' (List.mem_cons_of_mem _ hmem) f t h
      have hpw' : PlanDisjoint rest := (List.pairwise_cons.mp hpw).2
      have := ih table hok' hpw'
      simp only [List.map_cons, List.sum_cons, Option.isSome_none,
        Bool.false_eq_true, if_false]
      omega
    | (tx, some ft) =>
      have hgo : parExecuteGo table ((tx, some ft) :: rest) =
          parExecuteGo (execCall table tx ft.1 ft.2) rest := rfl
      rw [hgo]
      obtain ⟨hne, hf, ht, hbal⟩ := hok (tx, some ft)
        (List.mem_cons_self _ _) ft.1 ft.2 (by rw [Prod.mk.eta])
      have hstep := execCall_total table tx ft.1 ft.2 hne hf ht
        (Nat.le_trans (Nat.le_add_right _ _) hbal)
      have hok' : PlanOk (execCall table tx ft.1 ft.2) rest := by
        intro it' hmem f t h
        obtain ⟨hne', hf', ht', hbal'⟩ := hok it'
          (List.mem_cons_of_mem _ hmem) f t h
        have hdisj := (List.pairwise_cons.mp hpw).1 it' hmem ft.1 ft.2 f t
          (by rw [Prod.mk.eta]) h
        refine ⟨hne', ?_, ?_, ?_⟩
        · rw [execCall_length]
          exact hf'
        · rw [execCall_length]
          exact ht'
        · rw [execCall_getD_ne table tx ft.1 ft.2 f
            (fun hcon => hdisj.1 hcon.symm)
            (fun hcon => hdisj.2.2.1 hcon.symm)]
          exact hbal'
      have hpw' : PlanDisjoint rest := (List.pairwise_cons.mp hpw).2
      have hrec := ih (execCall table tx ft.1 ft.2) hok' hpw'
      simp only [List.map_cons, List.sum_cons, Option.isSome_some, if_pos]
      omega

/-! ## C2: conservation of balances across a batch -/

/-- `find?` over an append when the left part already finds a hit. -/
theorem find?_append_some {α : Type} (p : α → Bool) (l1 l2 : List α) (x : α)
    (h : l1.find? p = some x) : (l1 ++ l2).find? p = some x := by
  induction l1 with
  | nil => exact Option.noConfusion h
  | cons a t ih =>
    by_cases hpa : p a = true
    · rw [List.find?_cons_of_pos _ hpa] at h
      rw [List.cons_append, List.find?_cons_of_pos _ hpa]
      exact h
    · rw [List.find?_cons_of_neg _ hpa] at h
      rw [List.cons_append, List.find?_cons_of_neg _ hpa]
      exact ih h

/-- `find?` over an append when the left part has no hit. -/
theorem find?_append_none {α : Type} (p : α → Bool) (l1 l2 : List α)
    (h : l1.find? p = none) : (l1 ++ l2).find? p = l2.find? p := by
  induction l1 with
  | nil => rfl
  | cons a t ih =>
    by_cases hpa : p a = true
    · rw [List.find?_cons_of_pos _ hpa] at h
      exact Option.noConfusion h
    · rw [List.find?_cons_of_neg _ hpa] at h
      rw [List.cons_append, List.find?_cons_of_neg _ hpa]
      exact ih h

/-- A failed `lookup` is a failed `find?` on the backing association list. -/
theorem lookup_none_find? (ap : AllocatedPages) (key : PublicKey)
    (h : ap.lookup key = none) :
    ap.allocated.find? (fun p => p.1 == key) = none := by
  unfold AllocatedPages.lookup at h
  cases hc : ap.allocated.find? (fun p => p.1 == key) with
  | none => rfl
  | some x =>
    rw [hc] at h
    exact Option.noConfusion h

/-- A failed `lookup` means no entry carries the key. -/
theorem lookup_none_not_mem (ap : AllocatedPages) (key : PublicKey)
    (h : ap.lookup key = none) : ∀ p ∈ ap.allocated, p.1 ≠ key := by
  intro p hp
  have := List.find?_eq_none.mp (lookup_none_find? ap key h) p hp
  simpa using this

/-- A successful `lookup` exhibits its entry in the association list. -/
theorem lookup_mem (ap : AllocatedPages) (key : PublicKey) (v : Nat)
    (h : ap.lookup key = some v) : (key, v) ∈ ap.allocated := by
  unfold AllocatedPages.lookup at h
  cases hc : ap.allocated.find? (fun p => p.1 == key) with
  | none =>
    rw [hc] at h
    exact Option.noConfusion h
  | some x =>
    rw [hc] at h
    have hx2 : x.2 = v := by simpa using h
    have hx1 : x.1 = key := by simpa using List.find?_some hc
    have hmem := List.mem_of_find?_eq_some hc
    have hxe : x = (key, v) := by
      rw [← hx1, ← hx2]
    rw [hxe] at hmem
    exact hmem

/-- Under `MapWF`, an allocated index is within the page vector. -/
theorem lookup_lt (pt : PageTable) (hwf : MapWF pt) (key : PublicKey)
    (v : Nat) (h : pt.allocated_pages.lookup key = some v) :
    v < pt.page_table.length :=
  hwf.1 (key, v) (lookup_mem _ _ _ h)

/-- Under `MapWF`, two keys mapped to the same index coincide. -/
theorem lookup_inj (pt : PageTable) (hwf : MapWF pt) (k1 k2 : PublicKey)
    (v : Nat) (h1 : pt.allocated_pages.lookup k1 = some v)
    (h2 : pt.allocated_pages.lookup k2 = some v) : k1 = k2 := by
  by_contra hne
  have hm1 := lookup_mem _ _ _ h1
  have hm2 := lookup_mem _ _ _ h2
  have hsym : Symmetric
      (fun (a b : PublicKey × Nat) => a.1 ≠ b.1 ∧ a.2 ≠ b.2) :=
    fun a b hab => ⟨Ne.symm hab.1, Ne.symm hab.2⟩
  have hne' : (k1, v) ≠ (k2, v) := fun hc => hne (congrArg Prod.fst hc)
  exact (hwf.2.1.forall hsym hm1 hm2 hne').2 rfl

/-- `lookup` on an extended map finds the new entry when the key was
absent. -/
theorem lookup_append_self (ap : AllocatedPages) (key : PublicKey)
    (ix m : Nat) (h : ap.lookup key = none) :
    (AllocatedPages.mk m (ap.allocated ++ [(key, ix)]) []).lookup key =
      some ix := by
  show ((ap.allocated ++ [(key, ix)]).find?
    (fun p => p.1 == key)).map Prod.snd = some ix
  rw [find?_append_none _ _ _ (lookup_none_find? ap key h)]
  simp [List.find?]

/-- `lookup` on an extended map keeps every previous hit. -/
theorem lookup_append_other (ap : AllocatedPages) (key k' : PublicKey)
    (ix m : Nat) (v : Nat) (h : ap.lookup k' = some v) :
    (AllocatedPages.mk m (ap.allocated ++ [(key, ix)]) []).lookup k' =
      some v := by
  show ((ap.allocated ++ [(key, ix)]).find?
    (fun p => p.1 == k')).map Prod.snd = some v
  unfold AllocatedPages.lookup at h
  cases hc : ap.allocated.find? (fun p => p.1 == k') with
  | none =>
    rw [hc] at h
    exact Option.noConfusion h
  | some x =>
    rw [find?_append_some _ _ _ _ hc]
    rw [hc] at h
    exact h

/-- `lookup` of a different absent key stays a miss on the extended map. -/
theorem lookup_append_none (ap : AllocatedPages) (key k' : PublicKey)
    (ix m : Nat) (hne : k' ≠ key) (h : ap.lookup k' = none) :
    (AllocatedPages.mk m (ap.allocated ++ [(key, ix)]) []).lookup k' =
      none := by
  show ((ap.allocated ++ [(key, ix)]).find?
    (fun p => p.1 == k')).map Prod.snd = none
  rw [find?_append_none _ _ _ (lookup_none_find? ap k' h)]
  have hb : (key == k') = false := by
    simp [Ne.symm hne]
  simp [List.find?, hb]

/-- `allocate` with an empty free list bumps `max` and appends. -/
theorem allocate_free_nil (ap : AllocatedPages) (key : PublicKey)
    (hfree : ap.free = []) :
    ap.allocate key =
      (ap.max, ⟨ap.max + 1, ap.allocated ++ [(key, ap.max)], []⟩) := by
  unfold AllocatedPages.allocate
  rw [hfree]

/-- Setting the position just past a list, after padding it by one. -/
theorem set_append_singleton {α : Type} (l : List α) (d p : α) :
    (l ++ [d]).set l.length p = l ++ [p] := by
  induction l with
  | nil => rfl
  | cons a t ih =>
    simp only [List.cons_append, List.length_cons, List.set_cons_succ, ih]

/-- The index `allocate_keys` hands out under `MapWF`: the current length
of the page vector. -/
theorem allocate_fst (ap : AllocatedPages) (key : PublicKey)
    (hfree : ap.free = []) : (ap.allocate key).1 = ap.max := by
  rw [allocate_free_nil ap key hfree]

/-- Under `MapWF`'s empty-free-list and `max`-is-length facts, one
allocation appends the fresh page and the fresh map entry. -/
theorem allocOne_eq (pt : PageTable) (tx : Tx)
    (hfree : pt.allocated_pages.free = [])
    (hmax : pt.allocated_pages.max = pt.page_table.length) :
    allocOne pt tx =
      { pt with
        page_table := pt.page_table ++
          [{ owner := tx.destination, contract := tx.call.contract,
             balance := 0, version := 0, memhash := 0, memory := [] }],
        allocated_pages :=
          ⟨pt.page_table.length + 1,
            pt.allocated_pages.allocated ++
              [(tx.destination, pt.page_table.length)], []⟩ } := by
  have ha : pt.allocated_pages.allocate tx.destination =
      (pt.page_table.length,
        ⟨pt.page_table.length + 1,
          pt.allocated_pages.allocated ++
            [(tx.destination, pt.page_table.length)], []⟩) := by
    rw [allocate_free_nil _ _ hfree, hmax]
  have hrep : pt.page_table.length + 1 - pt.page_table.length = 1 := by
    omega
  simp only [allocOne, ha]
  rw [if_pos (Nat.le_refl _), hrep, List.replicate_one, set_append_singleton]

/-- Index access through a plain `zip`. -/
theorem getD_zip {α β : Type} (l1 : List α) (l2 : List β) (i : Nat)
    (h1 : i < l1.length) (h2 : i < l2.length) (d1 : α) (d2 : β) :
    (l1.zip l2).getD i (d1, d2) = (l1.getD i d1, l2.getD i d2) := by
  have hz : i < (l1.zip l2).length := by
    rw [List.length_zip]
    omega
  rw [List.getD_eq_getElem _ _ hz, List.getD_eq_getElem _ _ h1,
    List.getD_eq_getElem _ _ h2, List.getElem_zip]

/-- What `allocate_keys` assumes of its worklist: recorded `to_pages` hits
agree with the map, missing destinations are really unallocated, and two
distinct to-be-allocated calls never share a destination (the lock
acquisition guarantees this for the pipeline's worklists). -/
def AllocPre (pt : PageTable)
    (items : List (Tx × Option Nat × Option Nat)) : Prop :=
  (∀ it ∈ items,
    (∀ v : Nat, it.2.2 = some v →
      pt.allocated_pages.lookup it.1.destination = some v) ∧
    (it.2.1.isSome = true → it.2.2 = none →
      pt.allocated_pages.lookup it.1.destination = none)) ∧
  items.Pairwise (fun a b =>
    a.2.1.isSome = true → a.2.2 = none → b.2.1.isSome = true →
    b.2.2 = none → a.1.destination ≠ b.1.destination)

/-- The allocation pass: preserves `MapWF` and the balance total, only
grows the page vector, leaves existing pages and map entries intact,
produces one `to_pages` entry per item, and every `Some` entry of the
final `to_pages` is the final map's binding of that call's destination. -/
theorem allocateKeysGo_spec (items : List (Tx × Option Nat × Option Nat)) :
    ∀ pt : PageTable, MapWF pt → AllocPre pt items →
    MapWF (allocateKeysGo pt items).1 ∧
    (((allocateKeysGo pt items).1.page_table.map Page.balance).sum =
      (pt.page_table.map Page.balance).sum) ∧
    pt.page_table.length ≤ (allocateKeysGo pt items).1.page_table.length ∧
    (∀ k, k < pt.page_table.length →
      (allocateKeysGo pt items).1.page_table.getD k Page.default =
        pt.page_table.getD k Page.default) ∧
    (∀ key v, pt.allocated_pages.lookup key = some v →
      (allocateKeysGo pt items).1.allocated_pages.lookup key = some v) ∧
    (allocateKeysGo pt items).2.length = items.length ∧
    (∀ i v, (allocateKeysGo pt items).2.getD i none = some v →
      (allocateKeysGo pt items).1.allocated_pages.lookup
        ((items.getD i (default, none, none)).1.destination) = some v) := by
  induction items with
  | nil =>
    intro pt hwf _
    refine ⟨hwf, rfl, Nat.le_refl _, fun k _ => rfl, fun key v h => h, rfl,
      fun i v h => ?_⟩
    simp [allocateKeysGo] at h
  | cons it rest ih =>
    obtain ⟨tx, fp, tp⟩ := it
    intro pt hwf hpre
    by_cases hskip : (fp.isNone || tp.isSome) = true
    · have heq : allocateKeysGo pt ((tx, fp, tp) :: rest) =
          ((allocateKeysGo pt rest).1, tp :: (allocateKeysGo pt rest).2) := by
        simp only [allocateKeysGo]
        rw [if_pos hskip]
      have hpre' : AllocPre pt rest :=
        ⟨fun it' hm => hpre.1 it' (List.mem_cons_of_mem _ hm),
          (List.pairwise_cons.mp hpre.2).2⟩
      obtain ⟨h1, h2, h3, h4, h5, h6, h7⟩ := ih pt hwf hpre'
      rw [heq]
      refine ⟨h1, h2, h3, h4, h5, by simp [h6], ?_⟩
      intro i v hv
      cases i with
      | zero =>
        simp only [List.getD_cons_zero] at hv ⊢
        exact h5 _ _ ((hpre.1 (tx, fp, tp) (List.mem_cons_self _ _)).1 v hv)
      | succ i =>
        simp only [List.getD_cons_succ] at hv ⊢
        exact h7 i v hv
    · have heq : allocateKeysGo pt ((tx, fp, tp) :: rest) =
          ((allocateKeysGo (allocOne pt tx) rest).1,
            some (pt.allocated_pages.allocate tx.destination).1 ::
              (allocateKeysGo (allocOne pt tx) rest).2) := by
        simp only [allocateKeysGo]
        rw [if_neg hskip]
      rw [Bool.or_eq_true, not_or] at hskip
      have hfps : fp.isSome = true := by
        cases fp with
        | none => exact absurd rfl hskip.1
        | some a => rfl
      have htp : tp = none := by
        cases tp with
        | none => rfl
        | some a => exact absurd rfl hskip.2
      subst htp
      have hlknone : pt.allocated_pages.lookup tx.destination = none :=
        (hpre.1 (tx, fp, none) (List.mem_cons_self _ _)).2 hfps rfl
      have hfree : pt.allocated_pages.free = [] := hwf.2.2.1
      have hmax : pt.allocated_pages.max = pt.page_table.length := hwf.2.2.2
      have hone := allocOne_eq pt tx hfree hmax
      have hfst : (pt.allocated_pages.allocate tx.destination).1 =
          pt.page_table.length := by
        rw [allocate_fst _ _ hfree, hmax]
      have hwf' : MapWF (allocOne pt tx) := by
        rw [hone]
        refine ⟨?_, ?_, rfl, ?_⟩
        · intro p hp
          show p.2 < (pt.page_table ++ [_]).length
          rw [List.length_append, List.length_singleton]
          simp only [List.mem_append, List.mem_singleton] at hp
          rcases hp with hp | hp
          · have := hwf.1 p hp
            omega
          · rw [hp]
            omega
        · show (pt.allocated_pages.allocated ++
            [(tx.destination, pt.page_table.length)]).Pairwise _
          rw [List.pairwise_append]
          refine ⟨hwf.2.1, List.pairwise_singleton _ _, ?_⟩
          intro a ha b hb
          simp only [List.mem_singleton] at hb
          subst hb
          refine ⟨lookup_none_not_mem _ _ hlknone a ha, ?_⟩
          have := hwf.1 a ha
          show a.2 ≠ pt.page_table.length
          omega
        · show pt.page_table.length + 1 = (pt.page_table ++ [_]).length
          rw [List.length_append, List.length_singleton]
      have hpair := List.pairwise_cons.mp hpre.2
      have hpre' : AllocPre (allocOne pt tx) rest := by
        constructor
        · intro it' hm
          obtain ⟨hsome, hnone⟩ := hpre.1 it' (List.mem_cons_of_mem _ hm)
          constructor
          · intro v hv
            rw [hone]
            exact lookup_append_other pt.allocated_pages tx.destination
              it'.1.destination pt.page_table.length _ v (hsome v hv)
          · intro hs hn
            have hneq : it'.1.destination ≠ tx.destination :=
              Ne.symm (hpair.1 it' hm hfps rfl hs hn)
            rw [hone]
            exact lookup_append_none pt.allocated_pages tx.destination
              it'.1.destination pt.page_table.length _ hneq (hnone hs hn)
        · exact hpair.2
      obtain ⟨h1, h2, h3, h4, h5, h6, h7⟩ := ih (allocOne pt tx) hwf' hpre'
      rw [heq]
      have hlen1 : (allocOne pt tx).page_table.length =
          pt.page_table.length + 1 := by
        rw [hone]
        show (pt.page_table ++ [_]).length = _
        rw [List.length_append, List.length_singleton]
      have hsum1 : ((allocOne pt tx).page_table.map Page.balance).sum =
          (pt.page_table.map Page.balance).sum := by
        rw [hone]
        show ((pt.page_table ++ [_]).map Page.balance).sum = _
        rw [List.map_append, List.sum_append]
        simp
      have hgetD1 : ∀ k, k < pt.page_table.length →
          (allocOne pt tx).page_table.getD k Page.default =
            pt.page_table.getD k Page.default := by
        intro k hk
        rw [hone]
        show (pt.page_table ++ [_]).getD k Page.default = _
        rw [List.getD_append _ _ _ _ hk]
      refine ⟨h1, ?_, ?_, ?_, ?_, by simp [h6], ?_⟩
      · rw [h2, hsum1]
      · refine Nat.le_trans ?_ h3
        rw [hlen1]
        exact Nat.le_succ _
      · intro k hk
        rw [h4 k (by rw [hlen1]; exact Nat.lt_succ_of_lt hk)]
        exact hgetD1 k hk
      · intro key v hv
        refine h5 key v ?_
        rw [hone]
        exact lookup_append_other pt.allocated_pages tx.destination key
          pt.page_table.length _ v hv
      · intro i v hv
        cases i with
        | zero =>
          simp only [List.getD_cons_zero] at hv ⊢
          rw [hfst] at hv
          have hvv : pt.page_table.length = v := by
            injection hv
          subst hvv
          refine h5 _ _ ?_
          rw [hone]
          exact lookup_append_self pt.allocated_pages tx.destination
            pt.page_table.length _ hlknone
        | succ i =>
          simp only [List.getD_cons_succ] at hv ⊢
          exact h7 i v hv

/-- What a successful `validate_debits` entry guarantees: the call acquired
its locks, the caller's page is the looked-up one, and its balance covers
`fee + amount`. -/
theorem validateDebitEntry_some (pt : PageTable) (tx : Tx) (acq : Bool)
    (f : Nat) (h : validateDebitEntry pt tx acq = some f) :
    acq = true ∧ pt.allocated_pages.lookup tx.call.caller = some f ∧
    ∃ page, pt.page_table.get? f = some page ∧
      tx.call.fee + tx.call.amount ≤ page.balance := by
  unfold validateDebitEntry at h
  cases acq with
  | false => simp at h
  | true =>
    simp only [Bool.not_true, Bool.false_eq_true, if_false] at h
    split at h
    · exact Option.noConfusion h
    · rename_i memix heq
      split at h
      · exact Option.noConfusion h
      · rename_i page hpg
        by_cases h1 : page.version ≥ tx.call.version
        · rw [if_pos h1] at h
          exact Option.noConfusion h
        · rw [if_neg h1] at h
          by_cases h2 : page.contract ≠ tx.call.contract
          · rw [if_pos h2] at h
            exact Option.noConfusion h
          · rw [if_neg h2] at h
            by_cases h3 : page.balance ≥ tx.call.fee + tx.call.amount
            · rw [if_pos h3] at h
              have hf : memix = f := by injection h
              subst hf
              exact ⟨rfl, heq, page, hpg, h3⟩
            · rw [if_neg h3] at h
              exact Option.noConfusion h

/-- The key sets of two acquired calls of a batch are disjoint. -/
theorem acquire_disjoint (locks : LockSet) (packet : List Tx) (i j : Nat)
    (hij : i < j) (hj : j < packet.length)
    (hacqi : (acquireMemoryLock locks packet).1.getD i false = true)
    (hacqj : (acquireMemoryLock locks packet).1.getD j false = true) :
    ∀ k ∈ txKeys (packet.getD i default),
      k ∉ txKeys (packet.getD j default) := by
  intro k hki hkj
  have hi : i < packet.length := lt_trans hij hj
  have hstate : (acquireMemoryLock locks (packet.take j)).2.contains k =
      true :=
    acquire_take_mono packet locks (i + 1) j hij k
      (acquire_inserted packet locks i hi hacqi k hki)
  have hnc := (acquire_get_char packet locks j hj).mp hacqj
  unfold txCollides at hnc
  rw [Bool.or_eq_false_iff] at hnc
  simp only [txKeys, List.mem_cons, List.mem_singleton,
    List.not_mem_nil, or_false] at hkj
  rcases hkj with rfl | rfl
  · rw [hnc.1] at hstate
    exact Bool.noConfusion hstate
  · rw [hnc.2] at hstate
    exact Bool.noConfusion hstate

/-- The pipeline's conservation equation, stated over named stage values:
everything `par_execute` leaves in the table plus the fees of the loaded
calls equals the balance total the batch started from. -/
theorem runBatch_total (q : PageTable) (locks : LockSet) (packet : List Tx)
    (hwf : MapWF q)
    (hcd : ∀ tx ∈ packet, tx.call.caller ≠ tx.destination)
    (ab : List Bool)
    (hab : ab = (acquireMemoryLock locks packet).1)
    (fp : List (Option Nat))
    (hfp : fp = validateDebits q packet ab)
    (tp : List (Option Nat))
    (htp : tp = findNewKeys q packet fp)
    (al : PageTable × List (Option Nat))
    (hal : al = allocateKeysGo q (packet.zip (fp.zip tp)))
    (LP : List (Option (Nat × Nat)))
    (hLP : LP = loadPages packet fp al.2) :
    ((parExecuteGo al.1.page_table (packet.zip LP)).map Page.balance).sum +
      ((packet.zip LP).map
        (fun p => if p.2.isSome then p.1.call.fee else 0)).sum =
      (q.page_table.map Page.balance).sum := by
  have hlar : ab.length = packet.length := by
    rw [hab]
    exact acquire_length _ _
  have hlfp : fp.length = packet.length := by
    rw [hfp]
    unfold validateDebits
    rw [List.length_map, List.length_zip, hlar, Nat.min_self]
  have hltp : tp.length = packet.length := by
    rw [htp]
    unfold findNewKeys
    rw [List.length_map, List.length_zip, hlfp, Nat.min_self]
  have hlit : (packet.zip (fp.zip tp)).length = packet.length := by
    rw [List.length_zip, List.length_zip, hlfp, hltp, Nat.min_self,
      Nat.min_self]
  have hfpget : ∀ i, i < packet.length → fp.getD i none =
      validateDebitEntry q (packet.getD i default) (ab.getD i false) := by
    intro i h
    rw [hfp]
    exact validateDebits_getD q packet ab i h (by rw [hlar]; exact h)
  have htpget : ∀ i, i < packet.length → tp.getD i none =
      (match fp.getD i none with
        | none => none
        | some _ =>
          q.allocated_pages.lookup (packet.getD i default).destination) := by
    intro i h
    rw [htp]
    unfold findNewKeys
    exact getD_map_zip _ packet fp i h (by rw [hlfp]; exact h) default none
      none
  have hpre : AllocPre q (packet.zip (fp.zip tp)) := by
    constructor
    · intro it hm
      obtain ⟨i, hi, hgi⟩ := List.getElem_of_mem hm
      have hi' : i < packet.length := by
        rw [hlit] at hi
        exact hi
      have hit : it = (packet.getD i default, fp.getD i none,
          tp.getD i none) := by
        rw [← hgi, List.getElem_zip, List.getElem_zip,
          List.getD_eq_getElem _ _ hi',
          List.getD_eq_getElem _ _ (by rw [hlfp]; exact hi'),
          List.getD_eq_getElem _ _ (by rw [hltp]; exact hi')]
      subst hit
      constructor
      · intro v hv
        have hv' : tp.getD i none = some v := hv
        rw [htpget i hi'] at hv'
        cases hfpi : fp.getD i none with
        | none =>
          rw [hfpi] at hv'
          exact Option.noConfusion hv'
        | some f0 =>
          rw [hfpi] at hv'
          exact hv'
      · intro hs hn
        have hs' : (fp.getD i none).isSome = true := hs
        have hn' : tp.getD i none = none := hn
        rw [htpget i hi'] at hn'
        cases hfpi : fp.getD i none with
        | none =>
          rw [hfpi] at hs'
          exact Bool.noConfusion hs'
        | some f0 =>
          rw [hfpi] at hn'
          exact hn'
    · rw [List.pairwise_iff_getElem]
      intro i j hi hj hij
      have hip : i < packet.length := by
        rw [hlit] at hi
        exact hi
      have hjp : j < packet.length := by
        rw [hlit] at hj
        exact hj
      have hzi : (packet.zip (fp.zip tp))[i] =
          (packet.getD i default, fp.getD i none, tp.getD i none) := by
        rw [List.getElem_zip, List.getElem_zip,
          List.getD_eq_getElem _ _ hip,
          List.getD_eq_getElem _ _ (by rw [hlfp]; exact hip),
          List.getD_eq_getElem _ _ (by rw [hltp]; exact hip)]
      have hzj : (packet.zip (fp.zip tp))[j] =
          (packet.getD j default, fp.getD j none, tp.getD j none) := by
        rw [List.getElem_zip, List.getElem_zip,
          List.getD_eq_getElem _ _ hjp,
          List.getD_eq_getElem _ _ (by rw [hlfp]; exact hjp),
          List.getD_eq_getElem _ _ (by rw [hltp]; exact hjp)]
      rw [hzi, hzj]
      intro hsi hni hsj hnj
      have hsi' : (fp.getD i none).isSome = true := hsi
      have hsj' : (fp.getD j none).isSome = true := hsj
      cases hfpi : fp.getD i none with
      | none =>
        rw [hfpi] at hsi'
        exact absurd hsi' (by simp)
      | some fi =>
        cases hfpj : fp.getD j none with
        | none =>
          rw [hfpj] at hsj'
          exact absurd hsj' (by simp)
        | some fj =>
          have henti := hfpget i (lt_trans hij hjp)
          rw [hfpi] at henti
          have hentj := hfpget j hjp
          rw [hfpj] at hentj
          obtain ⟨hacqi, -⟩ :=
            validateDebitEntry_some q _ _ _ henti.symm
          obtain ⟨hacqj, -⟩ :=
            validateDebitEntry_some q _ _ _ hentj.symm
          rw [hab] at hacqi hacqj
          have hkd := acquire_disjoint locks packet i j hij hjp
            hacqi hacqj
          have hd := hkd (packet.getD i default).destination
            (by simp [txKeys])
          intro hdd
          exact hd (by rw [hdd]; simp [txKeys])
  obtain ⟨hW1, hW2, hW3, hW4, hW5, hW6, hW7⟩ :=
    allocateKeysGo_spec (packet.zip (fp.zip tp)) q hwf hpre
  rw [← hal] at hW1 hW2 hW3 hW4 hW5 hW6 hW7
  have hlal2 : al.2.length = packet.length := by
    rw [hW6, hlit]
  have hlLP : LP.length = packet.length := by
    rw [hLP]
    unfold loadPages
    rw [List.length_map, List.length_zip, List.length_zip, hlfp, hlal2,
      Nat.min_self, Nat.min_self]
  have hLPget : ∀ i, i < packet.length → LP.getD i none =
      (match fp.getD i none, al.2.getD i none with
        | some f, some t => some (f, t)
        | _, _ => none) := by
    intro i h
    rw [hLP]
    unfold loadPages
    rw [getD_map_zip _ packet (fp.zip al.2) i h
      (by rw [List.length_zip, hlfp, hlal2, Nat.min_self]; exact h)
      default (none, none) none]
    rw [getD_zip fp al.2 i (by rw [hlfp]; exact h)
      (by rw [hlal2]; exact h) none none]
  have hload : ∀ i, i < packet.length → ∀ f t : Nat,
      LP.getD i none = some (f, t) →
      ab.getD i false = true ∧
      al.1.allocated_pages.lookup
        (packet.getD i default).call.caller = some f ∧
      al.1.allocated_pages.lookup
        (packet.getD i default).destination = some t ∧
      f < q.page_table.length ∧
      (packet.getD i default).call.fee +
          (packet.getD i default).call.amount ≤
        (al.1.page_table.getD f Page.default).balance := by
    intro i h f t hLPi
    rw [hLPget i h] at hLPi
    cases hfpi : fp.getD i none with
    | none =>
      rw [hfpi] at hLPi
      have hLPi' : (none : Option (Nat × Nat)) = some (f, t) := hLPi
      exact Option.noConfusion hLPi'
    | some f0 =>
      rw [hfpi] at hLPi
      cases hal2i : al.2.getD i none with
      | none =>
        rw [hal2i] at hLPi
        have hLPi' : (none : Option (Nat × Nat)) = some (f, t) := hLPi
        exact Option.noConfusion hLPi'
      | some t0 =>
        rw [hal2i] at hLPi
        have hLPi' : some (f0, t0) = some (f, t) := hLPi
        have hpair : (f0, t0) = (f, t) := by
          injection hLPi'
        have hff : f0 = f := congrArg Prod.fst hpair
        have htt : t0 = t := congrArg Prod.snd hpair
        subst hff
        subst htt
        have hent := hfpget i h
        rw [hfpi] at hent
        obtain ⟨hacq, hlk, page, hget, hbal⟩ :=
          validateDebitEntry_some q _ _ _ hent.symm
        have hflt : f0 < q.page_table.length := by
          by_contra hc
          rw [List.get?_eq_none.mpr (Nat.le_of_not_lt hc)] at hget
          exact Option.noConfusion hget
        have hitem : (packet.zip (fp.zip tp)).getD i (default, none, none) =
            (packet.getD i default, (fp.zip tp).getD i (none, none)) :=
          getD_zip packet (fp.zip tp) i h
            (by rw [List.length_zip, hlfp, hltp, Nat.min_self]; exact h)
            default (none, none)
        have hto := hW7 i t0 hal2i
        rw [hitem] at hto
        have hto' : al.1.allocated_pages.lookup
            (packet.getD i default).destination = some t0 := hto
        have hgd : q.page_table.getD f0 Page.default = page := by
          rw [List.getD_eq_getElem?_getD, ← List.get?_eq_getElem?, hget]
          rfl
        refine ⟨hacq, hW5 _ _ hlk, hto', hflt, ?_⟩
        rw [hW4 f0 hflt, hgd]
        exact hbal
  have hok : PlanOk al.1.page_table (packet.zip LP) := by
    intro it hm f t hft
    obtain ⟨i, hi, hgi⟩ := List.getElem_of_mem hm
    have hi' : i < packet.length := by
      rw [List.length_zip, hlLP, Nat.min_self] at hi
      exact hi
    have hit : it = (packet.getD i default, LP.getD i none) := by
      rw [← hgi, List.getElem_zip, List.getD_eq_getElem _ _ hi',
        List.getD_eq_getElem _ _ (by rw [hlLP]; exact hi')]
    subst hit
    have hLPi : LP.getD i none = some (f, t) := hft
    obtain ⟨-, hcf, hct, hflt, hbal⟩ := hload i hi' f t hLPi
    have hmem : packet.getD i default ∈ packet := by
      rw [List.getD_eq_getElem _ _ hi']
      exact List.getElem_mem _
    refine ⟨?_, Nat.lt_of_lt_of_le hflt hW3, lookup_lt al.1 hW1 _ _ hct,
      hbal⟩
    intro heq
    subst heq
    exact hcd _ hmem (lookup_inj al.1 hW1 _ _ f hcf hct)
  have hdisj : PlanDisjoint (packet.zip LP) := by
    unfold PlanDisjoint
    rw [List.pairwise_iff_getElem]
    intro i j hi hj hij
    have hip : i < packet.length := by
      rw [List.length_zip, hlLP, Nat.min_self] at hi
      exact hi
    have hjp : j < packet.length := by
      rw [List.length_zip, hlLP, Nat.min_self] at hj
      exact hj
    have hzi : (packet.zip LP)[i] =
        (packet.getD i default, LP.getD i none) := by
      rw [List.getElem_zip, List.getD_eq_getElem _ _ hip,
        List.getD_eq_getElem _ _ (by rw [hlLP]; exact hip)]
    have hzj : (packet.zip LP)[j] =
        (packet.getD j default, LP.getD j none) := by
      rw [List.getElem_zip, List.getD_eq_getElem _ _ hjp,
        List.getD_eq_getElem _ _ (by rw [hlLP]; exact hjp)]
    rw [hzi, hzj]
    intro fa ta fb tb ha hb
    have ha' : LP.getD i none = some (fa, ta) := ha
    have hb' : LP.getD j none = some (fb, tb) := hb
    obtain ⟨hacqa, hcfa, hcta, -, -⟩ := hload i hip fa ta ha'
    obtain ⟨hacqb, hcfb, hctb, -, -⟩ := hload j hjp fb tb hb'
    rw [hab] at hacqa hacqb
    have hkd := acquire_disjoint locks packet i j hij hjp hacqa hacqb
    have hcc := hkd (packet.getD i default).call.caller (by simp [txKeys])
    have hdc := hkd (packet.getD i default).destination (by simp [txKeys])
    have hne1 : (packet.getD i default).call.caller ≠
        (packet.getD j default).call.caller := by
      intro he
      exact hcc (by rw [he]; simp [txKeys])
    have hne2 : (packet.getD i default).call.caller ≠
        (packet.getD j default).destination := by
      intro he
      exact hcc (by rw [he]; simp [txKeys])
    have hne3 : (packet.getD i default).destination ≠
        (packet.getD j default).call.caller := by
      intro he
      exact hdc (by rw [he]; simp [txKeys])
    have hne4 : (packet.getD i default).destination ≠
        (packet.getD j default).destination := by
      intro he
      exact hdc (by rw [he]; simp [txKeys])
    refine ⟨?_, ?_, ?_, ?_⟩
    · intro he
      subst he
      exact hne1 (lookup_inj al.1 hW1 _ _ fa hcfa hcfb)
    · intro he
      subst he
      exact hne2 (lookup_inj al.1 hW1 _ _ fa hcfa hctb)
    · intro he
      subst he
      exact hne3 (lookup_inj al.1 hW1 _ _ ta hcta hcfb)
    · intro he
      subst he
      exact hne4 (lookup_inj al.1 hW1 _ _ ta hcta hctb)
  have hexec := parExecuteGo_total (packet.zip LP) al.1.page_table hok hdisj
  rw [hexec]
  exact hW2

/-- A one-page table for the C2 counterexample: key 1 owns page 0 with
balance 10 under the default contract. -/
def c2page : Page :=
  { owner := 1, contract := 0, balance := 10, version := 0, memhash := 0,
    memory := [] }

def c2pt : PageTable :=
  { page_table := [c2page],
    allocated_pages := { max := 1, allocated := [(1, 0)], free := [] },
    mem_locks := [] }

/-- A transfer: caller 1 moves 5 to the unallocated key 2 with fee 1. -/
def c2call : Call :=
  { caller := 1, contract := 0, amount := 5, fee := 1, version := 1,
    method := 128, user_data := .uAmount 5 }

def c2tx : Tx := { call := c2call, destination := 2 }

/-- C2 (counterexample): a batch does not leave the sum of all page
balances unchanged — the committed transfer also burns its fee, so one
valid call drops the total from 10 to 9. -/
theorem claim_C2_counterexample :
    totalBalance (runBatch c2pt [c2tx]) ≠ totalBalance c2pt := by
  decide

/-- C2 (amended): across `process_packet` on a well-formed page table
whose calls never name their own caller as destination, the sum of all
page balances drops by exactly the fees of the executed (memory-loaded)
calls: `totalBalance after + executedFees = totalBalance before`. Every
other movement — the transfer amounts, the freshly allocated pages —
cancels out. -/
theorem claim_C2_amended (pt : PageTable) (packet : List Tx)
    (hwf : MapWF pt)
    (hcd : ∀ tx ∈ packet, tx.call.caller ≠ tx.destination) :
    totalBalance (runBatch pt packet) + executedFees pt packet =
      totalBalance pt :=
  runBatch_total
    { pt with mem_locks := (acquireMemoryLock pt.mem_locks packet).2 }
    pt.mem_locks packet hwf hcd _ rfl _ rfl _ rfl _ rfl _ rfl

/-- The counterexample table is well-formed. -/
theorem c2pt_mapWF : MapWF c2pt :=
  ⟨by decide, List.pairwise_singleton _ _, rfl, rfl⟩

/-- C2 witness: the amended conservation equation holds of the concrete
one-call batch (9 + 1 = 10). -/
theorem claim_C2_witness :
    MapWF c2pt ∧ (∀ tx ∈ [c2tx], tx.call.caller ≠ tx.destination) ∧
    totalBalance (runBatch c2pt [c2tx]) + executedFees c2pt [c2tx] =
      totalBalance c2pt :=
  ⟨c2pt_mapWF, by decide,
    claim_C2_amended c2pt [c2tx] c2pt_mapWF (by decide)⟩
